import Mathlib

/-!
# ChatLogger (src/chat-logger.js): a shallow embedding

JavaScript strings are lists of characters, Number values that the logger
handles are exact integers (`none` stands for `NaN`), the two Redis databases
are association lists, and the asynchronous methods are run one at a time
(no interleaving of two methods is modelled).
-/

namespace ChatLogger

/-- A JavaScript string. -/
abbrev Str := List Char

/-! ## Platform functions used by the source -/

/-- White space that `parseInt` skips (ECMAScript `StrWhiteSpaceChar`). -/
def isJSWhitespace (c : Char) : Bool :=
  c.toNat = 0x09 || c.toNat = 0x0A || c.toNat = 0x0B || c.toNat = 0x0C || c.toNat = 0x0D ||
  c.toNat = 0x20 || c.toNat = 0xA0 || c.toNat = 0x1680 ||
  (0x2000 ≤ c.toNat && c.toNat ≤ 0x200A) ||
  c.toNat = 0x2028 || c.toNat = 0x2029 || c.toNat = 0x202F || c.toNat = 0x205F ||
  c.toNat = 0x3000 || c.toNat = 0xFEFF

/-- Value of a character as a digit of the given radix (10 or 16), if it is one. -/
def digitValue (radix : Nat) (c : Char) : Option Nat :=
  if 48 ≤ c.toNat ∧ c.toNat ≤ 57 then some (c.toNat - 48)
  else if radix = 16 ∧ 97 ≤ c.toNat ∧ c.toNat ≤ 102 then some (c.toNat - 87)
  else if radix = 16 ∧ 65 ≤ c.toNat ∧ c.toNat ≤ 70 then some (c.toNat - 55)
  else none

/-- Longest prefix of digits of the radix, read as a number; the Boolean tells
whether at least one digit was read. -/
def readDigits (radix : Nat) : Str → Nat → Bool → Nat × Bool
  | [], acc, seen => (acc, seen)
  | c :: cs, acc, seen =>
    match digitValue radix c with
    | some d => readDigits radix cs (acc * radix + d) true
    | none => (acc, seen)

/-- Strips an optional sign: `(negative, rest)`. -/
def stripSign : Str → Bool × Str
  | '-' :: r => (true, r)
  | '+' :: r => (false, r)
  | s => (false, s)

/-- Strips an optional `0x` / `0X` prefix: `(radix, rest)`. -/
def stripRadix : Str → Nat × Str
  | '0' :: 'x' :: r => (16, r)
  | '0' :: 'X' :: r => (16, r)
  | s => (10, s)

/-- JavaScript `parseInt(s)` with no radix argument; `none` is `NaN`.
The result is kept exact (the rounding of integers above 2^53 is not modelled;
it does not change the outcome of a comparison with a day or month number). -/
def parseInt (s : Str) : Option Int :=
  let s1 := s.dropWhile isJSWhitespace
  let (neg, s2) := stripSign s1
  let (radix, s3) := stripRadix s2
  match readDigits radix s3 0 false with
  | (v, true) => some (if neg then -(v : Int) else (v : Int))
  | (_, false) => none

/-- `parseInt(x)` where `x` may be `undefined` (`none`): `parseInt(undefined)`
reads the string "undefined" and is `NaN`. -/
def parseIntOpt : Option Str → Option Int
  | some s => parseInt s
  | none => none

/-- JavaScript `a < b` for a possibly-`NaN` left operand: `NaN < b` is false. -/
def jsLt (a : Option Int) (b : Int) : Bool :=
  match a with
  | some x => decide (x < b)
  | none => false

/-- JavaScript `s.split(':')`. -/
def splitColon : Str → List Str
  | [] => [[]]
  | c :: cs =>
    if c = ':' then [] :: splitColon cs
    else
      match splitColon cs with
      | h :: t => (c :: h) :: t
      | [] => [[c]]

/-- Template-literal rendering of a value that may be `undefined`. -/
def tpl : Option Str → Str
  | some s => s
  | none => "undefined".toList

/-- Template-literal rendering of a non-negative integer Number. -/
def numToStr (n : Nat) : Str := Nat.toDigits 10 n

/-- Source line 8: `leftpad = val => (val < 10 ? "0" + val : "" + val)`, for a Number
argument; `none` is `NaN` (`NaN < 10` is false, and `NaN` renders as "NaN"). -/
def leftpad : Option Nat → Str
  | some v => if v < 10 then '0' :: numToStr v else numToStr v
  | none => "NaN".toList

/-! ## The current date and the staleness test -/

/-- What the source reads from `today = new Date()`: `getUTCDate()` (1..31) and
`getUTCMonth()` (0-based, 0..11). -/
structure Today where
  utcDate : Nat
  utcMonth : Nat
  deriving DecidableEq, Repr

/-- The staleness expression of lines 95, 131, 173 and 218, on the first two
fields of a time-key:
`parseInt(month) < today.getUTCMonth() + 1 &&
 (parseInt(day) < today.getUTCDate() || parseInt(month) < today.getUTCMonth())`. -/
def staleTest (today : Today) (day month : Option Str) : Bool :=
  jsLt (parseIntOpt month) ((today.utcMonth : Int) + 1) &&
    (jsLt (parseIntOpt day) (today.utcDate : Int) ||
      jsLt (parseIntOpt month) (today.utcMonth : Int))

/-- The staleness test applied to a time-key: `[day, month] = key.split(':')`. -/
def isStale (today : Today) (key : Str) : Bool :=
  staleTest today (splitColon key)[0]? (splitColon key)[1]?

/-! ## Plain objects, `Object.entries` and `Array.prototype.sort` -/

/-- Replaces the value stored under a key, keeping its position, or appends the
key at the end: how a map that remembers insertion order is written to. -/
def put {β : Type} : List (Str × β) → Str → β → List (Str × β)
  | [], k, v => [(k, v)]
  | (k', v') :: l, k, v => if k' = k then (k', v) :: l else (k', v') :: put l k v

/-- The own properties of a plain object `{}`, in creation order. -/
abbrev JSObj (β : Type) := List (Str × β)

/-- Property names every plain object inherits from `Object.prototype`. -/
def protoNames : List Str :=
  ["constructor", "__defineGetter__", "__defineSetter__", "hasOwnProperty",
   "__lookupGetter__", "__lookupSetter__", "isPrototypeOf", "propertyIsEnumerable",
   "toString", "valueOf", "__proto__", "toLocaleString"].map String.toList

/-- JavaScript `k in o` for a plain object: own or inherited property. -/
def hasProp {β : Type} (o : JSObj β) (k : Str) : Bool :=
  (o.lookup k).isSome || protoNames.contains k

/-- The property name `__proto__`. -/
def protoKey : Str := "__proto__".toList

/-- JavaScript `o[k] = v` for a Number `v`: assigning a Number to `__proto__`
runs the inherited setter, which ignores it. -/
def setProp {β : Type} (o : JSObj β) (k : Str) (v : β) : JSObj β :=
  if k = protoKey then o else put o k v

/-- The source's `if (k in o) o[k]++; else o[k] = 1;`. A counter is `none` when it
is `NaN`, which is what `++` makes of an inherited (non-numeric) property. -/
def increment (o : JSObj (Option Nat)) (k : Str) : JSObj (Option Nat) :=
  if hasProp o k then
    setProp o k (match o.lookup k with
      | some (some n) => some (n + 1)
      | _ => none)
  else setProp o k (some 1)

/-- The array index a property name denotes, if it is the canonical decimal
rendering of an integer below 2^32 - 1. -/
def arrayIndex (k : Str) : Option Nat :=
  match readDigits 10 k 0 false with
  | (v, true) => if numToStr v = k ∧ v < 4294967295 then some v else none
  | (_, false) => none

/-- JavaScript `Object.entries(o)`: array-index names first, in ascending numeric
order, then the other names in creation order. -/
def entries {β : Type} (o : JSObj β) : List (Str × β) :=
  (o.filter (fun p => (arrayIndex p.1).isSome)).insertionSort
      (fun a b => (arrayIndex a.1).getD 0 ≤ (arrayIndex b.1).getD 0)
    ++ o.filter (fun p => !(arrayIndex p.1).isSome)

/-- One insertion step of the sort: the new element goes before the first
element `y` with `cmp x y < 0`. -/
def insertByCmp {α : Type} (cmp : α → α → Int) (x : α) : List α → List α
  | [] => [x]
  | y :: ys => if cmp x y < 0 then x :: y :: ys else y :: insertByCmp cmp x ys

/-- JavaScript `xs.sort(cmp)`, as the stable insertion sort the engine runs:
elements are inserted from left to right, each after the elements it does not
compare below. -/
def arraySort {α : Type} (cmp : α → α → Int) (xs : List α) : List α :=
  xs.foldl (fun acc x => insertByCmp cmp x acc) []

/-! ## The Redis databases (`./redis.js`) -/

/-- Modelled from the spec: an item of a character class `[...]` of a glob
pattern (`./redis.js` is not among the sources). -/
inductive ClassItem where
  | lit (c : Char)
  | range (lo hi : Char)
  deriving DecidableEq, Repr

/-- Modelled from the spec: a token of a glob pattern (`./redis.js` is not among
the sources). -/
inductive GlobTok where
  | star
  | any
  | lit (c : Char)
  | cls (neg : Bool) (items : List ClassItem)
  deriving DecidableEq, Repr

/-- Modelled from the spec: `keyStore.listKeys(pattern)` is "glob-style key
enumeration"; `./redis.js` is not among the sources. Reads a pattern into tokens:
`*`, `?`, a class `[...]` (with `^`, ranges and escapes) and `\c`. The second
argument is `some (neg, items)` while inside a class; the first bounds the number
of steps (one step reads at least one character). -/
def tokenizeAux : Nat → Option (Bool × List ClassItem) → Str → List GlobTok
  | 0, _, _ => []
  | _ + 1, none, [] => []
  | n + 1, none, c :: r =>
    if c = '*' then GlobTok.star :: tokenizeAux n none r
    else if c = '?' then GlobTok.any :: tokenizeAux n none r
    else if c = '[' then
      match r with
      | '^' :: r' => tokenizeAux n (some (true, [])) r'
      | _ => tokenizeAux n (some (false, [])) r
    else if c = '\\' then
      match r with
      | e :: r' => GlobTok.lit e :: tokenizeAux n none r'
      | [] => [GlobTok.lit c]
    else GlobTok.lit c :: tokenizeAux n none r
  | _ + 1, some (neg, items), [] => [GlobTok.cls neg items]
  | n + 1, some (neg, items), c :: r =>
    if c = '\\' then
      match r with
      | e :: r' => tokenizeAux n (some (neg, items ++ [ClassItem.lit e])) r'
      | [] => [GlobTok.cls neg (items ++ [ClassItem.lit c])]
    else if c = ']' then GlobTok.cls neg items :: tokenizeAux n none r
    else
      match r with
      | '-' :: hi :: r' => tokenizeAux n (some (neg, items ++ [ClassItem.range c hi])) r'
      | _ => tokenizeAux n (some (neg, items ++ [ClassItem.lit c])) r

/-- Modelled from the spec: the tokens of a glob pattern. -/
def tokenize (pattern : Str) : List GlobTok :=
  tokenizeAux (pattern.length + 1) none pattern

/-- Modelled from the spec: whether a character is matched by an item of a
class of a glob pattern. -/
def ClassItem.accepts (c : Char) : ClassItem → Bool
  | ClassItem.lit x => x = c
  | ClassItem.range lo hi =>
    (lo.toNat ≤ c.toNat && c.toNat ≤ hi.toNat) || (hi.toNat ≤ c.toNat && c.toNat ≤ lo.toNat)

/-- Modelled from the spec: glob matching of a tokenised pattern against a key
(`./redis.js` is not among the sources). -/
def matchToks : List GlobTok → Str → Bool
  | [], s => s.isEmpty
  | GlobTok.star :: ts, s => s.tails.any (matchToks ts)
  | GlobTok.any :: ts, s =>
    match s with
    | _ :: s' => matchToks ts s'
    | [] => false
  | GlobTok.lit c :: ts, s =>
    match s with
    | d :: s' => c = d && matchToks ts s'
    | [] => false
  | GlobTok.cls neg items :: ts, s =>
    match s with
    | d :: s' => (items.any (ClassItem.accepts d) != neg) && matchToks ts s'
    | [] => false

/-- Modelled from the spec: whether a key matches a glob pattern. -/
def globMatch (pattern key : Str) : Bool := matchToks (tokenize pattern) key

/-- Modelled from the spec: a hash of the `logs` database (`./redis.js` is not
among the sources): its fields with their values, in insertion order. -/
abbrev Hash := List (Str × Str)

/-- Modelled from the spec: the `logs` database, a hash per key. -/
abbrev LogStore := List (Str × Hash)

/-- Modelled from the spec: the `seen` database, a Number per key. -/
abbrev SeenStore := List (Str × Int)

/-- Modelled from the spec: `keyStore.listKeys(pattern)`, Redis `KEYS`; the keys
come in the order of the database. -/
def keys (db : LogStore) (pattern : Str) : List Str :=
  (db.map Prod.fst).filter (globMatch pattern)

/-- Modelled from the spec: `keyStore.hashFieldsList(key)`, Redis `HKEYS`; an
absent key has no fields. -/
def hkeys (db : LogStore) (key : Str) : List Str :=
  ((db.lookup key).getD []).map Prod.fst

/-- Modelled from the spec: the alternating `field, value, field, value, ...`
arguments of `hashSetMany` are set one after the other (a field is stored once:
setting it again overwrites its value); `none` when a value is missing. -/
def hsetMany : Hash → List Str → Option Hash
  | h, [] => some h
  | _, [_] => none
  | h, f :: v :: rest => hsetMany (put h f v) rest

/-- Modelled from the spec: `keyStore.hashSetMany(key, ...alternatingFieldValuePairs)`,
Redis `HMSET`, applied to its argument array: an existing field is overwritten, a
new one is added; a call with no pair or with a field without value is an error
reply and changes nothing. -/
def hmset (db : LogStore) : List Str → LogStore
  | [] => db
  | [_] => db
  | key :: args =>
    match hsetMany ((db.lookup key).getD []) args with
    | some h => put db key h
    | none => db

/-- Modelled from the spec: `keyStore.hashFieldsDelete(key, ...fields)`, Redis
`HDEL`, applied to its argument array: the fields are removed, and a key whose
hash becomes empty no longer exists. -/
def hdel (db : LogStore) : List Str → LogStore
  | [] => db
  | key :: fields =>
    db.filterMap (fun e =>
      if e.1 = key then
        (if e.2.filter (fun p => !fields.contains p.1) = [] then none
         else some (e.1, e.2.filter (fun p => !fields.contains p.1)))
      else some e)

/-- Modelled from the spec: `valueStore.set(key, value)`. -/
def seenSet (db : SeenStore) (key : Str) (value : Int) : SeenStore := put db key value

/-- What `log` reads from `date = new Date(timestamp)`: `getUTCDate()`,
`getUTCMonth()` (0-based), `getUTCHours()`, and the local `getMinutes()` and
`getSeconds()`; every field of an invalid date is `NaN` (`none`). -/
structure JSDate where
  utcDate : Option Nat
  utcMonth : Option Nat
  utcHours : Option Nat
  minutes : Option Nat
  seconds : Option Nat
  deriving DecidableEq, Repr

/-- The globals the logger consults: `Config.disableLogging`,
`Handler.privateRooms.has(room)`, and the platform's `new Date(ms)` (which
depends on the time zone of the host). -/
structure Env where
  disableLogging : Bool
  privateRooms : Str → Bool
  mkDate : Int → JSDate

/-- The UTC calendar fields of an epoch-millisecond time value, with the local
minute and second taken at a fixed offset (in seconds) from UTC: an instance of
`new Date(ms)`. Time values beyond 8.64e15 ms are invalid dates. -/
def dateOfMillis (offsetSeconds : Int) (ms : Int) : JSDate :=
  if ms < -8640000000000000 ∨ 8640000000000000 < ms then ⟨none, none, none, none, none⟩
  else
    let secs := ms / 1000
    let days := secs / 86400
    let z := days + 719468
    let era := z / 146097
    let doe := z - era * 146097
    let yoe := (doe - doe / 1460 + doe / 36524 - doe / 146096) / 365
    let doy := doe - (365 * yoe + yoe / 4 - yoe / 100)
    let mp := (5 * doy + 2) / 153
    let d := doy - (153 * mp + 2) / 5 + 1
    let m := if mp < 10 then mp + 3 else mp - 9
    let loc := secs + offsetSeconds
    ⟨some d.toNat, some (m - 1).toNat, some ((secs % 86400) / 3600).toNat,
      some ((loc % 3600) / 60).toNat, some (loc % 60).toNat⟩

/-- JavaScript `x + 1` on a possibly-`NaN` Number. -/
def succNum : Option Nat → Option Nat
  | some n => some (n + 1)
  | none => none

/-- The time-key of line 76: UTC day, UTC month (1-based), UTC hour, local
minute, local second, each through `leftpad`, joined by `:`. -/
def timeKey (date : JSDate) : Str :=
  leftpad date.utcDate ++ ':' :: (leftpad (succNum date.utcMonth) ++ ':' ::
    (leftpad date.utcHours ++ ':' :: (leftpad date.minutes ++ ':' :: leftpad date.seconds)))

/-! ## The logger -/

/-- The fields of a `ChatLogger` instance. A continuation held in
`queuedOperations` (a promise's `resolve`) is named by a number. -/
structure State where
  logs : LogStore
  seen : SeenStore
  rooms : List Str
  queue : List (Str × List Str)
  queuedOperations : List Nat
  syncing : Bool
  deriving DecidableEq, Repr

/-- JavaScript truthiness of a value that is a string or `undefined`/`null`. -/
def truthy : Option Str → Bool
  | some s => !s.isEmpty
  | none => false

/-- Lines 59-80, `log(timestamp, room, userid, message)`. The timestamp is
given as the string `parseInt` reads; `room` and `userid` are strings or
`undefined` (`none`). A composite key holds a colon, so `key in this.queue` is
the test for an own property. -/
def log (env : Env) (st : State) (timestamp : Str) (room userid : Option Str)
    (message : Str) : State :=
  if env.disableLogging then st
  else
    match parseInt timestamp with
    | none => st
    | some t =>
      if !truthy userid || !truthy room then st
      else
        let ms := t * 1000
        let date := env.mkDate ms
        let rooms := if st.rooms.contains (tpl room) then st.rooms else st.rooms ++ [tpl room]
        let key := tpl room ++ ':' :: tpl userid
        let queue := if (st.queue.lookup key).isSome then st.queue else put st.queue key []
        let queue := put queue key (((queue.lookup key).getD []) ++ [timeKey date, message])
        let seen := if env.privateRooms (tpl room) then st.seen else seenSet st.seen (tpl userid) ms
        { st with rooms := rooms, queue := queue, seen := seen }

/-- Lines 51-57, `waitForSync()` called with the continuation `resolve`: returns
the new state and whether `resolve` was called at once. -/
def waitForSync (st : State) (resolve : Nat) : State × Bool :=
  ({ st with queuedOperations := st.queuedOperations ++ [resolve] }, !st.syncing)

/-- Lines 34-37: the `hmset` argument arrays of a flush, one per key of the
captured queue: `oldqueue[key].unshift(key)`. -/
def flushCommands (oldqueue : List (Str × List Str)) : List (List Str) :=
  oldqueue.map (fun e => e.1 :: e.2)

/-- Lines 28-30: a flush cycle starts: the queue is captured and replaced. -/
def flushStart (st : State) : State × List (Str × List Str) :=
  ({ st with syncing := true, queue := [] }, st.queue)

/-- Lines 32-39: the transaction of a flush cycle, run on the `logs` database. -/
def flushCommit (st : State) (oldqueue : List (Str × List Str)) : State :=
  { st with logs := (flushCommands oldqueue).foldl hmset st.logs }

/-- Lines 41-43: the waiters are called, in order, and the cycle ends; returns
the continuations called. -/
def flushEnd (st : State) : State × List Nat :=
  ({ st with syncing := false }, st.queuedOperations)

/-- Lines 27-44: one whole flush cycle. Returns the state after it, the `hmset`
commands issued, and the continuations called. -/
def flushCycle (st : State) : State × List (List Str) × List Nat :=
  let (st1, oldqueue) := flushStart st
  let st2 := flushCommit st1 oldqueue
  let (st3, called) := flushEnd st2
  (st3, flushCommands oldqueue, called)

/-- Lines 108-111, 146-149, 185-188, 223-226:
`if (toPrune.length) { toPrune.unshift(key); this.logs.hdel.apply(this.logs, toPrune); }`. -/
def pruneFields (db : LogStore) (key : Str) (toPrune : List Str) : LogStore :=
  if toPrune.isEmpty then db else hdel db (key :: toPrune)

/-- Lines 206-228, `pruneAll()`, at a given current date (`new Date()`, read in
each iteration, is taken to stay the same during one sweep). -/
def pruneAll (today : Today) (db : LogStore) : LogStore :=
  (keys db "*".toList).foldl (fun db user =>
    let linecount := hkeys db user
    let toPrune := linecount.filter (isStale today)
    pruneFields db user toPrune) db

/-- Lines 92-106: the loop of `getLineCount` over the time-keys: the counters
and the keys to prune. -/
def lineCountLoop (today : Today) :
    List Str → JSObj (Option Nat) × List Str → JSObj (Option Nat) × List Str
  | [], acc => acc
  | key :: rest, (output, toPrune) =>
    if isStale today key then lineCountLoop today rest (output, toPrune ++ [key])
    else
      let outputkey := tpl (splitColon key)[0]? ++ '/' :: tpl (splitColon key)[1]?
      lineCountLoop today rest (increment output outputkey, toPrune)

/-- Lines 85-113, `getLineCount(room, userid)` once the sync barrier is passed:
the mapping returned and the `logs` database after the call. -/
def getLineCount (today : Today) (db : LogStore) (room userid : Str) :
    JSObj (Option Nat) × LogStore :=
  let linecount := hkeys db (room ++ ':' :: userid)
  let (output, toPrune) := lineCountLoop today linecount ([], [])
  (output, pruneFields db (room ++ ':' :: userid) toPrune)

/-- The options of `getUserActivity`: `options.day` as a Boolean and
`options.time` as a Number (`none` when absent). -/
structure ActivityOptions where
  day : Bool
  time : Option Nat
  deriving DecidableEq, Repr

/-- Lines 127-149: the body of the loop of `getUserActivity` for one composite
key `users[i]`. -/
def userActivityStep (today : Today) (options : ActivityOptions)
    (acc : JSObj Nat × LogStore) (userKey : Str) : JSObj Nat × LogStore :=
  let user := tpl (splitColon userKey)[1]?
  let keys0 := hkeys acc.2 userKey
  let toPrune := keys0.filter (fun key =>
    staleTest today (splitColon key)[0]? (splitColon key)[1]?)
  let keys1 := keys0.filter (fun key => !toPrune.contains key)
  let keys2 :=
    if options.day then
      keys1.filter (fun key =>
        decide ((splitColon key)[0]? = some (leftpad (some today.utcDate))) &&
        decide ((splitColon key)[1]? = some (leftpad (some (today.utcMonth + 1)))))
    else keys1
  let keys3 :=
    match options.time with
    | some h =>
      if h = 0 then keys2
      else keys2.filter (fun key => decide ((splitColon key)[2]? = some (leftpad (some h))))
    | none => keys2
  (setProp acc.1 user keys3.length, pruneFields acc.2 userKey toPrune)

/-- The comparator of line 152: `(a, b) => (a[1] > b[1] ? -1 : 1)`. -/
def byCountDesc (a b : Str × Nat) : Int := if a.2 > b.2 then -1 else 1

/-- Lines 119-152, `getUserActivity(room, options)` once the sync barrier is
passed: the sorted pairs and the `logs` database after the call. -/
def getUserActivity (today : Today) (db : LogStore) (room : Str)
    (options : ActivityOptions) : List (Str × Nat) × LogStore :=
  let users := keys db (room ++ ":*".toList)
  let res := users.foldl (userActivityStep today options) ([], db)
  (arraySort byCountDesc (entries res.1), res.2)

/-- Lines 170-183: the inner loop of `getRoomActivity` over one user's
time-keys. -/
def roomActivityLoop (today : Today) :
    List Str → JSObj (Option Nat) × List Str → JSObj (Option Nat) × List Str
  | [], acc => acc
  | time :: rest, (output, toPrune) =>
    if isStale today time then roomActivityLoop today rest (output, toPrune ++ [time])
    else roomActivityLoop today rest (increment output (tpl (splitColon time)[2]?), toPrune)

/-- Lines 166-188: the body of the outer loop of `getRoomActivity`. -/
def roomActivityStep (today : Today) (acc : JSObj (Option Nat) × LogStore) (userKey : Str) :
    JSObj (Option Nat) × LogStore :=
  let userlogs := hkeys acc.2 userKey
  let (output, toPrune) := roomActivityLoop today userlogs (acc.1, [])
  (output, pruneFields acc.2 userKey toPrune)

/-- JavaScript `a > b` on two possibly-`NaN` Numbers (exact integers: two
integers above 2^53 that a Number cannot tell apart are compared as they are
written). -/
def jsGt (a b : Option Int) : Bool :=
  match a, b with
  | some x, some y => decide (x > y)
  | _, _ => false

/-- The comparator of line 191:
`(a, b) => (parseInt(a[0]) > parseInt(b[0]) ? 1 : -1)`. -/
def byHourAsc (a b : Str × Option Nat) : Int :=
  if jsGt (parseInt a.1) (parseInt b.1) then 1 else -1

/-- Lines 158-191, `getRoomActivity(room)` once the sync barrier is passed. -/
def getRoomActivity (today : Today) (db : LogStore) (room : Str) :
    List (Str × Option Nat) × LogStore :=
  let users := keys db (room ++ ":*".toList)
  let res := users.foldl (roomActivityStep today) ([], db)
  (arraySort byHourAsc (entries res.1), res.2)

/-- Lines 195-197, `getUniqueUsers(room)` once the sync barrier is passed. -/
def getUniqueUsers (db : LogStore) (room : Str) : Nat :=
  (keys db (room ++ "*".toList)).length

/-- The staleness test as the specification words it, on the integer day and
month of a key and the current day and 1-based month:
`month < todayMonth AND (day < todayDay OR month < todayMonth)`. -/
def staleAsSpecified (todayDay todayMonth day month : Int) : Bool :=
  decide (month < todayMonth) && (decide (day < todayDay) || decide (month < todayMonth))

/-- The specification's "matches today": the day and month fields of a
time-key are today's UTC day and 1-based UTC month. -/
def carriesToday (today : Today) (key : Str) : Bool :=
  decide (parseIntOpt (splitColon key)[0]? = some (today.utcDate : Int)) &&
    decide (parseIntOpt (splitColon key)[1]? = some ((today.utcMonth : Int) + 1))

/-- A sample database: one user of the room `lobby` with messages of 10 May,
14 May, 20 May, 15 June and 16 June. -/
def sampleStore : LogStore :=
  [("lobby:alice".toList,
    [("10:05:09:30:00".toList, "a".toList), ("14:05:09:30:00".toList, "b".toList),
     ("20:05:09:30:00".toList, "c".toList), ("15:06:09:30:00".toList, "d".toList),
     ("16:06:09:30:00".toList, "e".toList)])]

/-- A decimal digit character. -/
def isDigitChar (c : Char) : Prop := 48 ≤ c.toNat ∧ c.toNat ≤ 57

/-- The arguments of one call of `log`. -/
structure LogCall where
  timestamp : Str
  room : Option Str
  userid : Option Str
  message : Str
  deriving DecidableEq, Repr

/-- The call `log(c.timestamp, c.room, c.userid, c.message)`. -/
def logCall (env : Env) (st : State) (c : LogCall) : State :=
  log env st c.timestamp c.room c.userid c.message

/-- A call that `log` does not drop: logging is enabled, the timestamp parses,
and `userid` and `room` are truthy. -/
def accepted (env : Env) (c : LogCall) : Bool :=
  !env.disableLogging && (parseInt c.timestamp).isSome && truthy c.userid && truthy c.room

/-- The composite key `room:userid` of a call. -/
def callKey (c : LogCall) : Str := tpl c.room ++ ':' :: tpl c.userid

/-- The `date` that `log` builds for a call whose timestamp parses. -/
def callDate (env : Env) (c : LogCall) : JSDate :=
  env.mkDate ((parseInt c.timestamp).getD 0 * 1000)

/-- The time-key that `log` builds for a call whose timestamp parses. -/
def callTimeKey (env : Env) (c : LogCall) : Str := timeKey (callDate env c)

/-- The distinct elements of a list, in order of first occurrence. -/
def firstOccurrences (l : List Str) : List Str :=
  l.foldl (fun acc k => if k ∈ acc then acc else acc ++ [k]) []

/-- The `timeKey, message` pairs of the calls made for a composite key, in the
order of the calls. -/
def pairsFor (env : Env) (calls : List LogCall) (k : Str) : List Str :=
  ((calls.filter (fun c => callKey c = k)).map (fun c => [callTimeKey env c, c.message])).flatten

/-- A sample host: logging enabled, the room `staff` private, the clock of a
host on UTC. -/
def sampleEnv : Env := ⟨false, fun r => decide (r = "staff".toList), dateOfMillis 0⟩

/-- The state the constructor sets up, with empty databases. -/
def emptyState : State := ⟨[], [], [], [], [], false⟩

/-- Three sample calls on 15 June 2024 (UTC): two by `alice`, one by `bob`. -/
def sampleCalls : List LogCall :=
  [⟨"1718450000".toList, some "lobby".toList, some "alice".toList, "hi".toList⟩,
   ⟨"1718450060".toList, some "lobby".toList, some "bob".toList, "yo".toList⟩,
   ⟨"1718450120".toList, some "lobby".toList, some "alice".toList, "bye".toList⟩]

/-- Two sample calls by `alice` in the same second of 15 June 2024 (UTC). -/
def sameSecondCalls : List LogCall :=
  [⟨"1718450000".toList, some "lobby".toList, some "alice".toList, "hi".toList⟩,
   ⟨"1718450000".toList, some "lobby".toList, some "alice".toList, "again".toList⟩]

/-- What `hmset` makes of the hash stored under its key (`none` when the key is
absent), given the arguments that follow the key. -/
def hmsetAt (old : Option Hash) : List Str → Option Hash
  | [] => old
  | args =>
    match hsetMany (old.getD []) args with
    | some h => some h
    | none => old

/-- A sample database on 15 June: `alice` has three messages in `lobby`, `bob`
five (one of them in the hour after midnight) and `carol` one. -/
def activityStore : LogStore :=
  [("lobby:alice".toList,
    [("15:06:09:30:00".toList, "a".toList), ("15:06:09:31:00".toList, "b".toList),
     ("15:06:10:00:00".toList, "c".toList)]),
   ("lobby:bob".toList,
    [("15:06:00:05:00".toList, "a".toList), ("15:06:05:00:00".toList, "b".toList),
     ("15:06:05:10:00".toList, "c".toList), ("15:06:09:00:00".toList, "d".toList),
     ("15:06:11:00:00".toList, "e".toList)]),
   ("lobby:carol".toList, [("15:06:09:45:00".toList, "a".toList)])]

/-- A character with a special meaning in a glob pattern. -/
def isGlobMeta (c : Char) : Bool := c = '*' || c = '?' || c = '[' || c = '\\'

/-- The count that `getUserActivity` is specified to report for the time-keys of
one composite key: the keys that are not stale, that carry today's zero-padded
day and month when the `day` option is set, and whose hour field is the
zero-padded `time` option when there is one. -/
def activityCount (today : Today) (options : ActivityOptions) (timeKeys : List Str) : Nat :=
  (timeKeys.filter (fun key =>
    !isStale today key &&
    (!options.day ||
      (decide ((splitColon key)[0]? = some (leftpad (some today.utcDate))) &&
       decide ((splitColon key)[1]? = some (leftpad (some (today.utcMonth + 1)))))) &&
    (match options.time with
     | some h => decide ((splitColon key)[2]? = some (leftpad (some h)))
     | none => true))).length

/-- A `logs` database is a map: no key occurs twice. -/
def StoreWF (db : LogStore) : Prop := (db.map Prod.fst).Nodup

instance (db : LogStore) : Decidable (StoreWF db) := by
  unfold StoreWF; infer_instance

/-- What a sweep leaves of one entry of the database. -/
def sweepEntry (today : Today) (e : Str × Hash) : Option (Str × Hash) :=
  if e.2.all (fun p => !isStale today p.1) then some e
  else if e.2.filter (fun p => !isStale today p.1) = [] then none
  else some (e.1, e.2.filter (fun p => !isStale today p.1))

/-- An operation on the logger: a call of `waitForSync` with the continuation
`resolve`, the three stages of a flush cycle (lines 28-30, 32-39 and 41-43, between
which other operations may run), or a call of `log`. -/
inductive Op where
  | wait (resolve : Nat)
  | flushStart
  | flushCommit
  | flushEnd
  | log (c : LogCall)
  deriving DecidableEq, Repr

/-- The logger while operations run: its state, the queue captured by the flush
cycle in progress (`oldqueue`), and, for each flush cycle that has ended, the
continuations it called. -/
structure Run where
  st : State
  captured : List (Str × List Str)
  called : List (List Nat)
  deriving DecidableEq, Repr

/-- Runs one operation. -/
def stepOp (env : Env) (r : Run) : Op → Run
  | Op.wait k => { r with st := (waitForSync r.st k).1 }
  | Op.flushStart => { r with st := (flushStart r.st).1, captured := (flushStart r.st).2 }
  | Op.flushCommit => { r with st := flushCommit r.st r.captured }
  | Op.flushEnd => { r with st := (flushEnd r.st).1, called := r.called ++ [(flushEnd r.st).2] }
  | Op.log c => { r with st := logCall env r.st c }

/-- Runs a sequence of operations. -/
def runOps (env : Env) (r : Run) (ops : List Op) : Run := ops.foldl (stepOp env) r

/-- The continuations passed to the `waitForSync` calls of a sequence of
operations, in order. -/
def waitsOf (ops : List Op) : List Nat :=
  ops.filterMap (fun op =>
    match op with
    | Op.wait k => some k
    | _ => none)

/-- Whether an operation is a call of `waitForSync`. -/
def Op.isWait : Op → Bool
  | Op.wait _ => true
  | _ => false

/-- A sample database with two rooms, the name of one starting with the name of
the other. -/
def twoRoomStore : LogStore :=
  [("lobby:alice".toList, [("15:06:09:30:00".toList, "a".toList)]),
   ("lobby2:bob".toList, [("15:06:09:31:00".toList, "b".toList)])]

/-- The label `day/month` under which `getLineCount` counts a time-key (line
100). -/
def dateLabel (key : Str) : Str := tpl (splitColon key)[0]? ++ '/' :: tpl (splitColon key)[1]?

/-- The label under which `getRoomActivity` counts a time-key: its hour field
(line 171). -/
def hourLabel (key : Str) : Str := tpl (splitColon key)[2]?

/-- The mapping that counts a list of time-keys by label: the distinct labels in
order of first occurrence, each with the number of keys that carry it. -/
def histogramBy (label : Str → Str) (timeKeys : List Str) : JSObj (Option Nat) :=
  (firstOccurrences (timeKeys.map label)).map
    (fun l => (l, some (timeKeys.filter (fun k => label k = l)).length))

/-- The hash stored under a key of the `logs` database (empty when the key is
absent). -/
def hashAt (db : LogStore) (key : Str) : Hash := (db.lookup key).getD []

/-- What a scan that reads the keys selected by `sel` leaves of one entry of the
database. -/
def scanEntry (today : Today) (sel : Str → Bool) (e : Str × Hash) : Option (Str × Hash) :=
  if sel e.1 then sweepEntry today e else some e

/-- The count that one iteration of the scan of `getUserActivity` stores for the
time-keys `keys0` of a composite key (lines 131-144). -/
def stepCount (today : Today) (options : ActivityOptions) (keys0 : List Str) : Nat :=
  let toPrune := keys0.filter (fun key =>
    staleTest today (splitColon key)[0]? (splitColon key)[1]?)
  let keys1 := keys0.filter (fun key => !toPrune.contains key)
  let keys2 :=
    if options.day then
      keys1.filter (fun key =>
        decide ((splitColon key)[0]? = some (leftpad (some today.utcDate))) &&
        decide ((splitColon key)[1]? = some (leftpad (some (today.utcMonth + 1)))))
    else keys1
  let keys3 :=
    match options.time with
    | some h =>
      if h = 0 then keys2
      else keys2.filter (fun key => decide ((splitColon key)[2]? = some (leftpad (some h))))
    | none => keys2
  keys3.length

/-- The non-stale time-keys of a room: those of each composite key matching
`room:*`, one key after the other. -/
def roomTimeKeys (today : Today) (db : LogStore) (room : Str) : List Str :=
  (keys db (room ++ ":*".toList)).flatMap
    (fun k => (hkeys db k).filter (fun f => !isStale today f))

/-- A sample database on 15 June whose time-keys have the hours 09, 02 and 13. -/
def hourStore : LogStore :=
  [("lobby:alice".toList,
    [("15:06:09:30:00".toList, "a".toList), ("15:06:02:10:00".toList, "b".toList)]),
   ("lobby:bob".toList,
    [("15:06:13:00:00".toList, "c".toList), ("15:06:09:45:00".toList, "d".toList)])]

/-- A sample database with a time-key whose hour field is the name of an
inherited property. -/
def protoHourStore : LogStore :=
  [("lobby:alice".toList, [("15:06:constructor:00:00".toList, "a".toList)])]

/-- A sample database whose only time-key, of 10 May, is stale on 15 June. -/
def staleOnlyStore : LogStore :=
  [("lobby:alice".toList, [("10:05:09:30:00".toList, "a".toList)])]

end ChatLogger

namespace ChatLogger

/-! ## The staleness test -/

theorem isStale_iff (today : Today) (key : Str) (d m : Int)
    (hd : parseIntOpt (splitColon key)[0]? = some d)
    (hm : parseIntOpt (splitColon key)[1]? = some m) :
    isStale today key = true ↔
      m < (today.utcMonth : Int) + 1 ∧ (d < (today.utcDate : Int) ∨ m < (today.utcMonth : Int)) := by
  simp [isStale, staleTest, hd, hm, jsLt]

/-- C1 (as the code has it): for a time-key whose day and month fields parse to
the integers `d` and `m`, the test of `pruneAll` and of the inline scans marks
the key stale if and only if `m < todayMonth` and (`d < todayDay` or
`m < todayMonth - 1`), where `todayMonth = getUTCMonth() + 1`: the second
disjunct compares with the 0-based month, so it is not redundant. -/
theorem stale_iff_code (today : Today) (key : Str) (d m : Int)
    (hd : parseIntOpt (splitColon key)[0]? = some d)
    (hm : parseIntOpt (splitColon key)[1]? = some m) :
    isStale today key = true ↔
      m < ((today.utcMonth : Int) + 1) ∧
        (d < (today.utcDate : Int) ∨ m < ((today.utcMonth : Int) + 1) - 1) := by
  rw [isStale_iff today key d m hd hm]
  simp

/-- Witness of `stale_iff_code`: on 15 June, the key of 10 May. -/
theorem stale_iff_code_witness :
    isStale ⟨15, 5⟩ "10:05:09:30:00".toList = true ↔
      (5 : Int) < ((5 : Nat) : Int) + 1 ∧
        ((10 : Int) < ((15 : Nat) : Int) ∨ (5 : Int) < (((5 : Nat) : Int) + 1) - 1) :=
  stale_iff_code ⟨15, 5⟩ "10:05:09:30:00".toList 10 5 (by decide) (by decide)

/-- C1 fails as stated: on 15 June (day 15, 1-based month 6) the key of 20 May
has integer day 20 and month 5; the specified test `5 < 6 ∧ (20 < 15 ∨ 5 < 6)`
holds, yet the code does not mark the key stale. -/
theorem stale_as_specified_counterexample :
    parseIntOpt (splitColon "20:05:09:30:00".toList)[0]? = some 20 ∧
    parseIntOpt (splitColon "20:05:09:30:00".toList)[1]? = some 5 ∧
    staleAsSpecified 15 6 20 5 = true ∧
    isStale ⟨15, 5⟩ "20:05:09:30:00".toList = false := by
  decide

/-! ## The `logs` database -/

theorem globMatch_star (k : Str) : globMatch "*".toList k = true := by
  have h : tokenize "*".toList = [GlobTok.star] := by decide
  simp only [globMatch, h, matchToks, List.any_eq_true]
  exact ⟨[], by simp, by simp [matchToks]⟩

theorem keys_star (db : LogStore) : keys db "*".toList = db.map Prod.fst := by
  simp only [keys]
  rw [List.filter_eq_self]
  intro k _
  exact globMatch_star k

theorem lookup_of_mem {β : Type} (db : List (Str × β)) (h : (db.map Prod.fst).Nodup)
    (e : Str × β) (he : e ∈ db) : db.lookup e.1 = some e.2 := by
  induction db with
  | nil => simp at he
  | cons a db ih =>
    obtain ⟨ak, av⟩ := a
    simp only [List.map_cons, List.nodup_cons] at h
    rcases List.mem_cons.1 he with rfl | he
    · simp [List.lookup]
    · have hne : e.1 ≠ ak := by
        intro heq
        exact h.1 (heq ▸ List.mem_map_of_mem Prod.fst he)
      have hb : (e.1 == ak) = false := by simpa using hne
      simp [List.lookup, hb, ih h.2 he]

theorem lookup_eq_none_of_not_mem {β : Type} (db : List (Str × β)) (k : Str)
    (h : k ∉ db.map Prod.fst) : db.lookup k = none := by
  induction db with
  | nil => rfl
  | cons a db ih =>
    obtain ⟨ak, av⟩ := a
    simp only [List.map_cons, List.mem_cons, not_or] at h
    have hb : (k == ak) = false := by simpa using h.1
    simp [List.lookup, hb, ih h.2]

theorem filterMap_keys_sublist (f : Str × Hash → Option (Str × Hash))
    (hf : ∀ e e', f e = some e' → e'.1 = e.1) (db : LogStore) :
    ((db.filterMap f).map Prod.fst).Sublist (db.map Prod.fst) := by
  induction db with
  | nil => simp
  | cons a db ih =>
    cases hfa : f a with
    | none => simpa [List.filterMap_cons, hfa] using ih.cons _
    | some b =>
      have := hf a b hfa
      simpa [List.filterMap_cons, hfa, this] using ih.cons₂ a.1

theorem sweepEntry_key (today : Today) (e e' : Str × Hash)
    (h : sweepEntry today e = some e') : e'.1 = e.1 := by
  unfold sweepEntry at h
  split at h
  · simp at h; rw [← h]
  · split at h
    · simp at h
    · simp at h; rw [← h]

theorem sweepEntry_fixed (today : Today) (e e' : Str × Hash)
    (h : sweepEntry today e = some e') : sweepEntry today e' = some e' := by
  unfold sweepEntry at h
  split at h
  · rename_i hall
    simp at h; subst h
    simp [sweepEntry, hall]
  · split at h
    · simp at h
    · simp at h; subst h
      have : (e.2.filter (fun p => !isStale today p.1)).all (fun p => !isStale today p.1) = true := by
        simp [List.all_eq_true]
      simp [sweepEntry, this]

theorem sweepEntry_fields (today : Today) (e : Str × Hash) (f : Str) :
    (∃ e', sweepEntry today e = some e' ∧ f ∈ e'.2.map Prod.fst) ↔
      f ∈ e.2.map Prod.fst ∧ isStale today f = false := by
  by_cases hall : e.2.all (fun p => !isStale today p.1) = true
  · have hs : sweepEntry today e = some e := by simp [sweepEntry, hall]
    simp only [List.all_eq_true] at hall
    simp only [hs, Option.some.injEq, exists_eq_left', List.mem_map]
    constructor
    · rintro ⟨p, hp, rfl⟩
      exact ⟨⟨p, hp, rfl⟩, by simpa using hall p hp⟩
    · rintro ⟨h, _⟩; exact h
  · by_cases hnil : e.2.filter (fun p => !isStale today p.1) = []
    · have hs : sweepEntry today e = none := by simp [sweepEntry, hall, hnil]
      rw [hs]
      constructor
      · rintro ⟨e', h, _⟩
        simp at h
      · rintro ⟨hmem, hst⟩
        obtain ⟨p, hp, rfl⟩ := List.mem_map.1 hmem
        have : p ∈ e.2.filter (fun p => !isStale today p.1) := by
          simp [List.mem_filter, hp, hst]
        rw [hnil] at this
        simp at this
    · have hs : sweepEntry today e = some (e.1, e.2.filter (fun p => !isStale today p.1)) := by
        simp [sweepEntry, hall, hnil]
      simp only [hs, Option.some.injEq, exists_eq_left', List.mem_map, List.mem_filter]
      constructor
      · rintro ⟨p, ⟨hp, hst⟩, rfl⟩
        exact ⟨⟨p, hp, rfl⟩, by simpa using hst⟩
      · rintro ⟨⟨p, hp, rfl⟩, hst⟩
        exact ⟨p, ⟨hp, by simpa using hst⟩, rfl⟩

theorem filter_not_contains_stale (today : Today) (h : Hash) :
    h.filter (fun p => !((h.map Prod.fst).filter (isStale today)).contains p.1) =
      h.filter (fun p => !isStale today p.1) := by
  apply List.filter_congr
  intro p hp
  have hm : p.1 ∈ h.map Prod.fst := List.mem_map_of_mem Prod.fst hp
  cases hst : isStale today p.1 <;> simp [List.mem_filter, hst, hm]

theorem stale_fields_isEmpty (today : Today) (h : Hash) :
    ((h.map Prod.fst).filter (isStale today)).isEmpty =
      h.all (fun p => !isStale today p.1) := by
  induction h with
  | nil => rfl
  | cons a h ih =>
    cases hst : isStale today a.1
    · simp [List.filter_cons, hst, ih]
    · simp [List.filter_cons, hst]

theorem hkeys_of_mem (db : LogStore) (hwf : StoreWF db) (e : Str × Hash) (he : e ∈ db) :
    hkeys db e.1 = e.2.map Prod.fst := by
  simp [hkeys, lookup_of_mem db hwf e he]

theorem hkeys_of_not_mem (db : LogStore) (k : Str) (hk : k ∉ db.map Prod.fst) :
    hkeys db k = [] := by
  simp [hkeys, lookup_eq_none_of_not_mem db k hk]

/-- One iteration of the sweep, on a database that is a map, rewrites the entry
of the key and no other. -/
theorem sweep_step_eq (today : Today) (db : LogStore) (hwf : StoreWF db) (k : Str) :
    pruneFields db k ((hkeys db k).filter (isStale today)) =
      db.filterMap (fun e => if e.1 = k then sweepEntry today e else some e) := by
  by_cases hk : k ∈ db.map Prod.fst
  · obtain ⟨e0, he0, rfl⟩ := List.mem_map.1 hk
    rw [hkeys_of_mem db hwf e0 he0]
    have hsame : ∀ e ∈ db, e.1 = e0.1 → e = e0 := by
      intro e he heq
      have h1 := lookup_of_mem db hwf e he
      have h2 := lookup_of_mem db hwf e0 he0
      rw [heq, h2] at h1
      exact Prod.ext heq (Option.some.inj h1).symm
    unfold pruneFields
    rw [stale_fields_isEmpty]
    by_cases hall : e0.2.all (fun p => !isStale today p.1) = true
    · rw [if_pos hall]
      symm
      rw [List.filterMap_congr (g := some), List.filterMap_some]
      intro e he
      by_cases heq : e.1 = e0.1
      · rw [if_pos heq, hsame e he heq]
        simp [sweepEntry, hall]
      · rw [if_neg heq]
    · rw [if_neg hall]
      simp only [hdel]
      apply List.filterMap_congr
      intro e he
      by_cases heq : e.1 = e0.1
      · rw [if_pos heq, if_pos heq]
        have := hsame e he heq
        subst this
        rw [filter_not_contains_stale]
        simp [sweepEntry, hall]
      · rw [if_neg heq, if_neg heq]
  · rw [hkeys_of_not_mem db k hk]
    simp only [List.filter_nil, pruneFields, List.isEmpty_nil, if_true]
    symm
    rw [List.filterMap_congr (g := some), List.filterMap_some]
    intro e he
    have : e.1 ≠ k := fun heq => hk (heq ▸ List.mem_map_of_mem Prod.fst he)
    rw [if_neg this]

theorem storeWF_filterMap (db : LogStore) (hwf : StoreWF db)
    (f : Str × Hash → Option (Str × Hash)) (hf : ∀ e e', f e = some e' → e'.1 = e.1) :
    StoreWF (db.filterMap f) :=
  (filterMap_keys_sublist f hf db).nodup hwf

theorem sweep_fold_eq (today : Today) (ks : List Str) (hks : ks.Nodup) :
    ∀ (db : LogStore), StoreWF db →
      ks.foldl (fun db user => pruneFields db user ((hkeys db user).filter (isStale today))) db =
        db.filterMap (fun e => if e.1 ∈ ks then sweepEntry today e else some e) := by
  induction ks with
  | nil => intro db _; simp
  | cons k ks ih =>
    intro db hwf
    rw [List.nodup_cons] at hks
    rw [List.foldl_cons, sweep_step_eq today db hwf k]
    rw [ih hks.2, List.filterMap_filterMap]
    · apply List.filterMap_congr
      intro e _
      by_cases heq : e.1 = k
      · simp only [heq, if_true, List.mem_cons, true_or]
        cases hs : sweepEntry today e with
        | none => rfl
        | some e' =>
          have hk' : e'.1 = k := (sweepEntry_key today e e' hs).trans heq
          simp [Option.bind, hk', hks.1]
      · simp [Option.bind, heq]
    · apply storeWF_filterMap db hwf
      intro e e' h
      by_cases heq : e.1 = k
      · rw [if_pos heq] at h; exact sweepEntry_key today e e' h
      · rw [if_neg heq] at h; simp at h; rw [← h]

/-- The sweep, on a database that is a map, rewrites every entry on its own. -/
theorem pruneAll_eq (today : Today) (db : LogStore) (hwf : StoreWF db) :
    pruneAll today db = db.filterMap (sweepEntry today) := by
  unfold pruneAll
  rw [keys_star, sweep_fold_eq today _ hwf db hwf]
  apply List.filterMap_congr
  intro e he
  rw [if_pos (List.mem_map_of_mem Prod.fst he)]

theorem storeWF_pruneAll (today : Today) (db : LogStore) (hwf : StoreWF db) :
    StoreWF (pruneAll today db) := by
  rw [pruneAll_eq today db hwf]
  exact storeWF_filterMap db hwf _ (sweepEntry_key today)

theorem hkeys_filterMap_sweep (today : Today) (db : LogStore) (hwf : StoreWF db)
    (k f : Str) :
    f ∈ hkeys (db.filterMap (sweepEntry today)) k ↔
      f ∈ hkeys db k ∧ isStale today f = false := by
  by_cases hk : k ∈ db.map Prod.fst
  · obtain ⟨e, he, rfl⟩ := List.mem_map.1 hk
    rw [hkeys_of_mem db hwf e he, ← sweepEntry_fields]
    have hwf' := storeWF_filterMap db hwf _ (sweepEntry_key today)
    cases hs : sweepEntry today e with
    | none =>
      have : e.1 ∉ (db.filterMap (sweepEntry today)).map Prod.fst := by
        intro hmem
        obtain ⟨e', he', hk'⟩ := List.mem_map.1 hmem
        obtain ⟨e0, he0, hs0⟩ := List.mem_filterMap.1 he'
        have h1 : e0.1 = e.1 := (sweepEntry_key today e0 e' hs0).symm.trans hk'
        have h2 := lookup_of_mem db hwf e0 he0
        have h3 := lookup_of_mem db hwf e he
        rw [h1, h3] at h2
        have : e0 = e := Prod.ext h1 (Option.some.inj h2).symm
        rw [this, hs] at hs0
        simp at hs0
      rw [hkeys_of_not_mem _ _ this]
      simp
    | some e' =>
      have he' : e' ∈ db.filterMap (sweepEntry today) := List.mem_filterMap.2 ⟨e, he, hs⟩
      have hk' := sweepEntry_key today e e' hs
      rw [← hk', hkeys_of_mem _ hwf' e' he']
      simp
  · have : k ∉ (db.filterMap (sweepEntry today)).map Prod.fst := fun h =>
      hk ((filterMap_keys_sublist _ (sweepEntry_key today) db).subset h)
    rw [hkeys_of_not_mem _ _ this, hkeys_of_not_mem _ _ hk]
    simp

/-! ## What pruning keeps -/

theorem hkeys_hdel_keeps (db : LogStore) (key : Str) (fs : List Str) (k f : Str)
    (hf : f ∈ hkeys db k) (hfs : f ∉ fs) : f ∈ hkeys (hdel db (key :: fs)) k := by
  induction db with
  | nil => simp [hkeys] at hf
  | cons a db ih =>
    obtain ⟨ak, av⟩ := a
    by_cases hk : k = ak
    · subst hk
      have hav : f ∈ av.map Prod.fst := by simpa [hkeys, List.lookup] using hf
      by_cases hkey : k = key
      · obtain ⟨p, hp, rfl⟩ := List.mem_map.1 hav
        have hpm : p ∈ av.filter (fun p => !fs.contains p.1) := by
          simp [List.mem_filter, hp, hfs]
        have hne : av.filter (fun p => !fs.contains p.1) ≠ [] := List.ne_nil_of_mem hpm
        simp only [hdel, List.filterMap_cons, hkey, if_true, if_neg hne]
        simp only [hkeys, List.lookup, beq_self_eq_true, Option.getD_some]
        exact List.mem_map_of_mem Prod.fst hpm
      · simp only [hdel, List.filterMap_cons, if_neg hkey]
        simpa [hkeys, List.lookup] using hav
    · have hb : (k == ak) = false := by simpa using hk
      have hf' : f ∈ hkeys db k := by simpa [hkeys, List.lookup, hb] using hf
      have ih' := ih hf'
      simp only [hdel] at ih' ⊢
      rw [List.filterMap_cons]
      split
      · exact ih'
      · rename_i b hb'
        have hbk : b.1 = ak := by
          by_cases hkey : ak = key
          · simp only [hkey, if_true] at hb'
            split at hb'
            · simp at hb'
            · simp at hb'; rw [← hb']; exact hkey.symm
          · simp only [if_neg hkey] at hb'
            simp at hb'; rw [← hb']
        obtain ⟨bk, bv⟩ := b
        simp only at hbk
        subst hbk
        simpa [hkeys, List.lookup, hb] using ih'

theorem pruneFields_keeps (today : Today) (db : LogStore) (key : Str) (toPrune : List Str)
    (hp : ∀ x ∈ toPrune, isStale today x = true) (k f : Str)
    (hst : isStale today f = false) (hf : f ∈ hkeys db k) :
    f ∈ hkeys (pruneFields db key toPrune) k := by
  unfold pruneFields
  split
  · exact hf
  · apply hkeys_hdel_keeps db key toPrune k f hf
    intro hmem
    rw [hp f hmem] at hst
    simp at hst

theorem foldl_preserves {σ α : Type} (P : σ → Prop) (step : σ → α → σ)
    (h : ∀ s a, P s → P (step s a)) : ∀ (l : List α) (s : σ), P s → P (l.foldl step s) := by
  intro l
  induction l with
  | nil => intro s hs; exact hs
  | cons a l ih => intro s hs; exact ih _ (h s a hs)

theorem lineCountLoop_toPrune (today : Today) (l : List Str) :
    ∀ (output : JSObj (Option Nat)) (toPrune : List Str),
      (lineCountLoop today l (output, toPrune)).2 = toPrune ++ l.filter (isStale today) := by
  induction l with
  | nil => intro o tp; simp [lineCountLoop]
  | cons a l ih =>
    intro o tp
    cases hst : isStale today a
    · simp [lineCountLoop, hst, ih]
    · simp [lineCountLoop, hst, ih]

theorem roomActivityLoop_toPrune (today : Today) (l : List Str) :
    ∀ (output : JSObj (Option Nat)) (toPrune : List Str),
      (roomActivityLoop today l (output, toPrune)).2 = toPrune ++ l.filter (isStale today) := by
  induction l with
  | nil => intro o tp; simp [roomActivityLoop]
  | cons a l ih =>
    intro o tp
    cases hst : isStale today a
    · simp [roomActivityLoop, hst, ih]
    · simp [roomActivityLoop, hst, ih]

theorem filter_stale_all (today : Today) (l : List Str) :
    ∀ x ∈ l.filter (isStale today), isStale today x = true := by
  intro x hx
  exact (List.mem_filter.1 hx).2

theorem pruneAll_keeps (today : Today) (db : LogStore) (k f : Str)
    (hst : isStale today f = false) (hf : f ∈ hkeys db k) :
    f ∈ hkeys (pruneAll today db) k := by
  unfold pruneAll
  apply foldl_preserves (fun db => f ∈ hkeys db k) _ _ _ db hf
  intro db' user hdb
  exact pruneFields_keeps today db' user _ (filter_stale_all today _) k f hst hdb

theorem getLineCount_keeps (today : Today) (db : LogStore) (room userid k f : Str)
    (hst : isStale today f = false) (hf : f ∈ hkeys db k) :
    f ∈ hkeys (getLineCount today db room userid).2 k := by
  have h := lineCountLoop_toPrune today (hkeys db (room ++ ':' :: userid)) [] []
  simp only [getLineCount]
  apply pruneFields_keeps today db _ _ _ k f hst hf
  rw [h]
  simp

theorem getUserActivity_keeps (today : Today) (db : LogStore) (room : Str)
    (options : ActivityOptions) (k f : Str)
    (hst : isStale today f = false) (hf : f ∈ hkeys db k) :
    f ∈ hkeys (getUserActivity today db room options).2 k := by
  simp only [getUserActivity]
  apply foldl_preserves (fun (acc : JSObj Nat × LogStore) => f ∈ hkeys acc.2 k) _ _ _ _ hf
  intro acc userKey hacc
  simp only [userActivityStep]
  exact pruneFields_keeps today acc.2 userKey _ (filter_stale_all today _) k f hst hacc

theorem getRoomActivity_keeps (today : Today) (db : LogStore) (room k f : Str)
    (hst : isStale today f = false) (hf : f ∈ hkeys db k) :
    f ∈ hkeys (getRoomActivity today db room).2 k := by
  simp only [getRoomActivity]
  apply foldl_preserves (fun (acc : JSObj (Option Nat) × LogStore) => f ∈ hkeys acc.2 k)
    _ _ _ _ hf
  intro acc userKey hacc
  have h := roomActivityLoop_toPrune today (hkeys acc.2 userKey) acc.1 []
  simp only [roomActivityStep]
  apply pruneFields_keeps today acc.2 userKey _ _ k f hst hacc
  rw [h]
  simp

theorem not_stale_of_current_month (today : Today) (key : Str)
    (hm : parseIntOpt (splitColon key)[1]? = some ((today.utcMonth : Int) + 1)) :
    isStale today key = false := by
  simp [isStale, staleTest, hm, jsLt]

/-! ## The sweep -/

/-- C2 fails as stated: on 15 June the sweep of the sample database leaves the
time-keys of 20 May and 16 June in place, and neither carries today's day and
month. -/
theorem sweep_keeps_other_days_counterexample :
    ¬ ∀ (today : Today) (db : LogStore), StoreWF db → ∀ k f : Str,
        f ∈ hkeys (pruneAll today db) k → carriesToday today f = true := by
  intro h
  have h1 := h ⟨15, 5⟩ sampleStore (by decide) "lobby:alice".toList "20:05:09:30:00".toList
    (by decide)
  revert h1
  decide

/-- C2 (as the code has it): after `pruneAll` the time-keys that remain under a
key are exactly those it had that the staleness test does not mark stale: every
stale time-key has been deleted and no other. -/
theorem sweep_leaves_exactly_nonstale (today : Today) (db : LogStore) (hwf : StoreWF db)
    (k f : Str) :
    f ∈ hkeys (pruneAll today db) k ↔ f ∈ hkeys db k ∧ isStale today f = false := by
  rw [pruneAll_eq today db hwf]
  exact hkeys_filterMap_sweep today db hwf k f

/-- Witness of `sweep_leaves_exactly_nonstale`: the sample database on 15 June,
the key of 20 May. -/
theorem sweep_leaves_exactly_nonstale_witness :
    "20:05:09:30:00".toList ∈ hkeys (pruneAll ⟨15, 5⟩ sampleStore) "lobby:alice".toList ↔
      "20:05:09:30:00".toList ∈ hkeys sampleStore "lobby:alice".toList ∧
        isStale ⟨15, 5⟩ "20:05:09:30:00".toList = false :=
  sweep_leaves_exactly_nonstale ⟨15, 5⟩ sampleStore (by decide) _ _

/-- C4: for a fixed current date, running `pruneAll` twice leaves the `logs`
database exactly as running it once does. -/
theorem pruneAll_idempotent (today : Today) (db : LogStore) (hwf : StoreWF db) :
    pruneAll today (pruneAll today db) = pruneAll today db := by
  rw [pruneAll_eq today _ (storeWF_pruneAll today db hwf), pruneAll_eq today db hwf,
    List.filterMap_filterMap]
  apply List.filterMap_congr
  intro e _
  cases hs : sweepEntry today e with
  | none => rfl
  | some e' => simpa [Option.bind] using sweepEntry_fixed today e e' hs

/-- Witness of `pruneAll_idempotent`: the sample database on 15 June. -/
theorem pruneAll_idempotent_witness :
    pruneAll ⟨15, 5⟩ (pruneAll ⟨15, 5⟩ sampleStore) = pruneAll ⟨15, 5⟩ sampleStore :=
  pruneAll_idempotent ⟨15, 5⟩ sampleStore (by decide)

/-- C3: for every current date, a time-key whose month is the current month is
not marked stale, and no pruning path (`pruneAll`, `getLineCount`,
`getUserActivity`, `getRoomActivity`) removes it from the database; a time-key
with month below the current month and day below the current day is marked
stale; on 15 June the keys of 10 May and 14 May are stale and pruned, and the
keys of 16 June and 15 June are kept. -/
theorem current_month_never_pruned (today : Today) :
    (∀ key : Str,
      parseIntOpt (splitColon key)[1]? = some ((today.utcMonth : Int) + 1) →
        isStale today key = false) ∧
    (∀ (db : LogStore) (room userid : Str) (options : ActivityOptions) (k f : Str),
      parseIntOpt (splitColon f)[1]? = some ((today.utcMonth : Int) + 1) →
      f ∈ hkeys db k →
        f ∈ hkeys (pruneAll today db) k ∧
        f ∈ hkeys (getLineCount today db room userid).2 k ∧
        f ∈ hkeys (getUserActivity today db room options).2 k ∧
        f ∈ hkeys (getRoomActivity today db room).2 k) ∧
    (∀ (key : Str) (d m : Int),
      parseIntOpt (splitColon key)[0]? = some d →
      parseIntOpt (splitColon key)[1]? = some m →
      m < (today.utcMonth : Int) + 1 → d < (today.utcDate : Int) →
        isStale today key = true) ∧
    (isStale ⟨15, 5⟩ "10:05:09:30:00".toList = true ∧
      isStale ⟨15, 5⟩ "14:05:09:30:00".toList = true ∧
      isStale ⟨15, 5⟩ "16:06:09:30:00".toList = false ∧
      isStale ⟨15, 5⟩ "15:06:09:30:00".toList = false ∧
      hkeys (pruneAll ⟨15, 5⟩ sampleStore) "lobby:alice".toList =
        ["20:05:09:30:00".toList, "15:06:09:30:00".toList, "16:06:09:30:00".toList]) := by
  refine ⟨not_stale_of_current_month today, ?_, ?_, by decide⟩
  · intro db room userid options k f hm hf
    have hst := not_stale_of_current_month today f hm
    exact ⟨pruneAll_keeps today db k f hst hf,
      getLineCount_keeps today db room userid k f hst hf,
      getUserActivity_keeps today db room options k f hst hf,
      getRoomActivity_keeps today db room k f hst hf⟩
  · intro key d m hd hm h1 h2
    exact (isStale_iff today key d m hd hm).2 ⟨h1, Or.inl h2⟩

/-- Witness of `current_month_never_pruned`: on 15 June the key of 15 June in
the sample database survives the sweep and a room-activity query. -/
theorem current_month_never_pruned_witness :
    parseIntOpt (splitColon "15:06:09:30:00".toList)[1]? = some (((5 : Nat) : Int) + 1) ∧
    "15:06:09:30:00".toList ∈ hkeys sampleStore "lobby:alice".toList ∧
    "15:06:09:30:00".toList ∈ hkeys (pruneAll ⟨15, 5⟩ sampleStore) "lobby:alice".toList ∧
    "15:06:09:30:00".toList ∈
      hkeys (getRoomActivity ⟨15, 5⟩ sampleStore "lobby".toList).2 "lobby:alice".toList :=
  ⟨by decide, by decide,
    ((current_month_never_pruned ⟨15, 5⟩).2.1 sampleStore "lobby".toList "alice".toList
      ⟨false, none⟩ "lobby:alice".toList "15:06:09:30:00".toList (by decide) (by decide)).1,
    ((current_month_never_pruned ⟨15, 5⟩).2.1 sampleStore "lobby".toList "alice".toList
      ⟨false, none⟩ "lobby:alice".toList "15:06:09:30:00".toList (by decide)
      (by decide)).2.2.2⟩

/-! ## Rendering and reading numbers -/

theorem digitChar_isDigit (d : Nat) (hd : d < 10) :
    isDigitChar (Nat.digitChar d) ∧ (Nat.digitChar d).toNat - 48 = d := by
  unfold isDigitChar
  interval_cases d <;> decide

theorem toDigitsCore_isDigit (fuel : Nat) :
    ∀ (n : Nat) (ds : List Char), (∀ c ∈ ds, isDigitChar c) →
      ∀ c ∈ Nat.toDigitsCore 10 fuel n ds, isDigitChar c := by
  induction fuel with
  | zero => intro n ds hds; simpa [Nat.toDigitsCore] using hds
  | succ fuel ih =>
    intro n ds hds
    have hd := (digitChar_isDigit (n % 10) (Nat.mod_lt _ (by decide))).1
    have hcons : ∀ c ∈ Nat.digitChar (n % 10) :: ds, isDigitChar c := by
      intro c hc
      rcases List.mem_cons.1 hc with rfl | hc
      · exact hd
      · exact hds c hc
    simp only [Nat.toDigitsCore]
    split
    · exact hcons
    · exact ih _ _ hcons

theorem numToStr_isDigit (n : Nat) : ∀ c ∈ numToStr n, isDigitChar c :=
  toDigitsCore_isDigit (n + 1) n [] (by simp)

theorem toDigitsCore_ne_nil (fuel n : Nat) (ds : List Char) :
    Nat.toDigitsCore 10 (fuel + 1) n ds ≠ [] := by
  induction fuel generalizing n ds with
  | zero =>
    rw [Nat.toDigitsCore]
    split
    · simp
    · simp [Nat.toDigitsCore]
  | succ fuel ih =>
    rw [Nat.toDigitsCore]
    split
    · simp
    · exact ih _ _

theorem numToStr_ne_nil (n : Nat) : numToStr n ≠ [] := toDigitsCore_ne_nil n n []

theorem digitValue_of_isDigit (c : Char) (hc : isDigitChar c) :
    digitValue 10 c = some (c.toNat - 48) := by
  unfold isDigitChar at hc
  simp [digitValue, hc.1, hc.2]

theorem readDigits_of_digits (s : Str) (hs : ∀ c ∈ s, isDigitChar c) :
    ∀ (acc : Nat) (seen : Bool),
      readDigits 10 s acc seen =
        (s.foldl (fun a c => a * 10 + (c.toNat - 48)) acc, seen || !s.isEmpty) := by
  induction s with
  | nil => intro acc seen; simp [readDigits]
  | cons c s ih =>
    intro acc seen
    have hc := hs c (List.mem_cons_self c s)
    rw [readDigits, digitValue_of_isDigit c hc]
    simp only
    rw [ih (fun x hx => hs x (List.mem_cons_of_mem c hx))]
    simp

theorem foldl_toDigitsCore (fuel : Nat) :
    ∀ (n : Nat) (ds : List Char), n < fuel →
      (Nat.toDigitsCore 10 fuel n ds).foldl (fun a c => a * 10 + (c.toNat - 48)) 0 =
        ds.foldl (fun a c => a * 10 + (c.toNat - 48)) n := by
  induction fuel with
  | zero => intro n ds h; omega
  | succ fuel ih =>
    intro n ds h
    have hd := (digitChar_isDigit (n % 10) (Nat.mod_lt _ (by decide))).2
    simp only [Nat.toDigitsCore]
    split
    · rename_i h0
      simp only [List.foldl_cons, Nat.zero_mul, Nat.zero_add, hd]
      have : n % 10 = n := by omega
      rw [this]
    · rename_i h0
      rw [ih (n / 10) _ (by omega)]
      simp only [List.foldl_cons, hd]
      have : n / 10 * 10 + n % 10 = n := by omega
      rw [this]

theorem foldl_numToStr (n : Nat) :
    (numToStr n).foldl (fun a c => a * 10 + (c.toNat - 48)) 0 = n := by
  have := foldl_toDigitsCore (n + 1) n [] (Nat.lt_succ_self n)
  simpa [numToStr, Nat.toDigits] using this

theorem not_whitespace_of_digit (c : Char) (hc : isDigitChar c) : isJSWhitespace c = false := by
  unfold isDigitChar at hc
  simp only [isJSWhitespace, Bool.or_eq_false_iff, Bool.and_eq_false_iff, decide_eq_false_iff_not]
  omega

/-- Reading back a non-empty string of decimal digits. -/
theorem parseInt_of_digits (s : Str) (hs : ∀ c ∈ s, isDigitChar c) (hne : s ≠ []) :
    parseInt s = some ((s.foldl (fun a c => a * 10 + (c.toNat - 48)) 0 : Nat) : Int) := by
  obtain ⟨c, r, rfl⟩ := List.exists_cons_of_ne_nil hne
  have hc := hs c (List.mem_cons_self c r)
  have h1 : (c :: r).dropWhile isJSWhitespace = c :: r := by
    simp [List.dropWhile, not_whitespace_of_digit c hc]
  have h2 : stripSign (c :: r) = (false, c :: r) := by
    unfold stripSign
    split
    · rename_i heq
      simp only [List.cons.injEq] at heq
      rw [heq.1] at hc
      exact absurd hc (by unfold isDigitChar; decide)
    · rename_i heq
      simp only [List.cons.injEq] at heq
      rw [heq.1] at hc
      exact absurd hc (by unfold isDigitChar; decide)
    · rfl
  have h3 : stripRadix (c :: r) = (10, c :: r) := by
    unfold stripRadix
    split
    · rename_i heq
      simp only [List.cons.injEq] at heq
      have hx := hs 'x' (by rw [heq.2]; simp)
      exact absurd hx (by unfold isDigitChar; decide)
    · rename_i heq
      simp only [List.cons.injEq] at heq
      have hx := hs 'X' (by rw [heq.2]; simp)
      exact absurd hx (by unfold isDigitChar; decide)
    · rfl
  simp only [parseInt, h1, h2, h3, readDigits_of_digits (c :: r) hs]
  simp

theorem leftpad_some (v : Nat) :
    leftpad (some v) = if v < 10 then '0' :: numToStr v else numToStr v := rfl

theorem leftpad_isDigit (v : Nat) : ∀ c ∈ leftpad (some v), isDigitChar c := by
  intro c hc
  rw [leftpad_some] at hc
  split at hc
  · rcases List.mem_cons.1 hc with rfl | hc
    · unfold isDigitChar; decide
    · exact numToStr_isDigit v c hc
  · exact numToStr_isDigit v c hc

theorem leftpad_ne_nil (v : Nat) : leftpad (some v) ≠ [] := by
  rw [leftpad_some]
  split
  · simp
  · exact numToStr_ne_nil v

/-- Reading back what `leftpad` renders. -/
theorem parseInt_leftpad (v : Nat) : parseInt (leftpad (some v)) = some (v : Int) := by
  rw [parseInt_of_digits _ (leftpad_isDigit v) (leftpad_ne_nil v), leftpad_some]
  split
  · have h0 : ('0' : Char).toNat - 48 = 0 := by decide
    rw [List.foldl_cons, h0, foldl_numToStr]
  · rw [foldl_numToStr]

/-! ## Insertion-ordered maps -/

theorem lookup_put {β : Type} (l : List (Str × β)) (k : Str) (v : β) (k' : Str) :
    (put l k v).lookup k' = if k' = k then some v else l.lookup k' := by
  induction l with
  | nil =>
    by_cases h : k' = k
    · simp [put, List.lookup, h]
    · have hb : (k' == k) = false := by simpa using h
      simp [put, List.lookup, h, hb]
  | cons a l ih =>
    obtain ⟨ak, av⟩ := a
    by_cases hak : ak = k
    · subst hak
      by_cases h : k' = ak
      · simp [put, List.lookup, h]
      · have hb : (k' == ak) = false := by simpa using h
        simp [put, List.lookup, h, hb]
    · by_cases h : k' = ak
      · subst h
        simp [put, List.lookup, hak]
      · have hb : (k' == ak) = false := by simpa using h
        simp [put, List.lookup, hak, hb, ih]

theorem put_keys {β : Type} (l : List (Str × β)) (k : Str) (v : β) :
    (put l k v).map Prod.fst =
      if k ∈ l.map Prod.fst then l.map Prod.fst else l.map Prod.fst ++ [k] := by
  induction l with
  | nil => simp [put]
  | cons a l ih =>
    obtain ⟨ak, av⟩ := a
    by_cases hak : ak = k
    · have hmem : k ∈ ((ak, av) :: l).map Prod.fst :=
        List.mem_map.2 ⟨(ak, av), List.mem_cons_self _ _, hak⟩
      rw [if_pos hmem]
      simp only [put, if_pos hak, List.map_cons]
    · have hka : ¬ k = ak := fun h => hak h.symm
      simp only [put, if_neg hak, List.map_cons, ih, List.mem_cons, hka, false_or]
      by_cases hk : k ∈ l.map Prod.fst
      · rw [if_pos hk, if_pos hk]
      · rw [if_neg hk, if_neg hk, List.cons_append]

theorem lookup_map_self {β : Type} (ks : List Str) (g : Str → β) (k : Str) :
    (ks.map (fun x => (x, g x))).lookup k = if k ∈ ks then some (g k) else none := by
  induction ks with
  | nil => simp [List.lookup]
  | cons a ks ih =>
    by_cases h : k = a
    · simp [List.lookup, h]
    · have hb : (k == a) = false := by simpa using h
      simp [List.lookup, hb, h, ih]

theorem put_map_of_mem {β : Type} (ks : List Str) (hnd : ks.Nodup) (g : Str → β)
    (k : Str) (v : β) (hk : k ∈ ks) :
    put (ks.map (fun x => (x, g x))) k v =
      ks.map (fun x => (x, if x = k then v else g x)) := by
  induction ks with
  | nil => simp at hk
  | cons a ks ih =>
    rw [List.nodup_cons] at hnd
    by_cases h : a = k
    · subst h
      simp only [List.map_cons, put, if_true, List.cons.injEq, true_and]
      apply List.map_congr_left
      intro x hx
      have : x ≠ a := fun hxa => hnd.1 (hxa ▸ hx)
      simp [this]
    · have hk' : k ∈ ks := by
        rcases List.mem_cons.1 hk with hka | hk'
        · exact absurd hka.symm h
        · exact hk'
      simp only [List.map_cons, put, if_neg h, ih hnd.2 hk']

theorem put_map_of_not_mem {β : Type} (ks : List Str) (g : Str → β)
    (k : Str) (v : β) (hk : k ∉ ks) :
    put (ks.map (fun x => (x, g x))) k v =
      (ks ++ [k]).map (fun x => (x, if x = k then v else g x)) := by
  induction ks with
  | nil => simp [put]
  | cons a ks ih =>
    simp only [List.mem_cons, not_or] at hk
    have h : ¬ a = k := fun h => hk.1 h.symm
    simp only [List.map_cons, put, if_neg h, ih hk.2, List.cons_append]

theorem foldl_addNew_spec (l : List Str) :
    ∀ acc : List Str, acc.Nodup →
      (l.foldl (fun acc k => if k ∈ acc then acc else acc ++ [k]) acc).Nodup ∧
      ∀ k, k ∈ l.foldl (fun acc k => if k ∈ acc then acc else acc ++ [k]) acc ↔
        k ∈ acc ∨ k ∈ l := by
  induction l with
  | nil => intro acc h; simp [h]
  | cons a l ih =>
    intro acc h
    rw [List.foldl_cons]
    by_cases ha : a ∈ acc
    · rw [if_pos ha]
      refine ⟨(ih acc h).1, fun k => ?_⟩
      rw [(ih acc h).2 k]
      constructor
      · rintro (h1 | h1)
        · exact Or.inl h1
        · exact Or.inr (List.mem_cons_of_mem a h1)
      · rintro (h1 | h1)
        · exact Or.inl h1
        · rcases List.mem_cons.1 h1 with rfl | h2
          · exact Or.inl ha
          · exact Or.inr h2
    · rw [if_neg ha]
      have hnd : (acc ++ [a]).Nodup := by
        rw [List.nodup_append]
        refine ⟨h, by simp, ?_⟩
        intro x hx hx'
        rw [List.mem_singleton] at hx'
        exact ha (hx' ▸ hx)
      refine ⟨(ih _ hnd).1, fun k => ?_⟩
      rw [(ih _ hnd).2 k]
      simp only [List.mem_append, List.mem_singleton, List.mem_cons]
      tauto

theorem firstOccurrences_nodup (l : List Str) : (firstOccurrences l).Nodup :=
  (foldl_addNew_spec l [] List.nodup_nil).1

theorem mem_firstOccurrences (l : List Str) (k : Str) : k ∈ firstOccurrences l ↔ k ∈ l := by
  have := (foldl_addNew_spec l [] List.nodup_nil).2 k
  simpa [firstOccurrences] using this

theorem firstOccurrences_append_singleton (l : List Str) (k : Str) :
    firstOccurrences (l ++ [k]) =
      if k ∈ firstOccurrences l then firstOccurrences l else firstOccurrences l ++ [k] := by
  simp [firstOccurrences, List.foldl_append]

theorem pairsFor_append_singleton (env : Env) (calls : List LogCall) (c : LogCall) (k : Str) :
    pairsFor env (calls ++ [c]) k =
      pairsFor env calls k ++ (if callKey c = k then [callTimeKey env c, c.message] else []) := by
  by_cases h : callKey c = k
  · simp [pairsFor, List.filter_append, List.filter_cons, h]
  · simp [pairsFor, List.filter_append, List.filter_cons, h]

theorem pairsFor_of_not_mem (env : Env) (calls : List LogCall) (k : Str)
    (hk : k ∉ calls.map callKey) : pairsFor env calls k = [] := by
  have : calls.filter (fun c => callKey c = k) = [] := by
    rw [List.filter_eq_nil_iff]
    intro c hc
    simp only [decide_eq_true_eq]
    intro h
    exact hk (h ▸ List.mem_map_of_mem callKey hc)
  simp [pairsFor, this]

/-! ## `log` and the flush cycle -/

theorem put_put {β : Type} (l : List (Str × β)) (k : Str) (v w : β) :
    put (put l k v) k w = put l k w := by
  induction l with
  | nil => simp [put]
  | cons a l ih =>
    obtain ⟨ak, av⟩ := a
    by_cases h : ak = k
    · simp [put, h]
    · simp [put, h, ih]

theorem accepted_iff (env : Env) (c : LogCall) :
    accepted env c = true ↔
      env.disableLogging = false ∧ (∃ t, parseInt c.timestamp = some t) ∧
        truthy c.userid = true ∧ truthy c.room = true := by
  simp only [accepted, Bool.and_eq_true, Bool.not_eq_true', Option.isSome_iff_exists]
  tauto

theorem logCall_logs (env : Env) (st : State) (c : LogCall) :
    (logCall env st c).logs = st.logs := by
  unfold logCall log
  split
  · rfl
  · split
    · rfl
    · split <;> rfl

theorem logCall_queue (env : Env) (st : State) (c : LogCall) (h : accepted env c = true) :
    (logCall env st c).queue =
      put st.queue (callKey c)
        ((st.queue.lookup (callKey c)).getD [] ++ [callTimeKey env c, c.message]) := by
  obtain ⟨h1, ⟨t, h2⟩, h3, h4⟩ := (accepted_iff env c).1 h
  simp only [logCall, log, h1, h2, h3, h4, callKey, callTimeKey, callDate, Option.getD_some]
  cases hl : List.lookup (tpl c.room ++ ':' :: tpl c.userid) st.queue with
  | none => simp [lookup_put, put_put]
  | some v => simp [hl]

theorem logCall_seen (env : Env) (st : State) (c : LogCall) (h : accepted env c = true) :
    (logCall env st c).seen =
      if env.privateRooms (tpl c.room) then st.seen
      else seenSet st.seen (tpl c.userid) ((parseInt c.timestamp).getD 0 * 1000) := by
  obtain ⟨h1, ⟨t, h2⟩, h3, h4⟩ := (accepted_iff env c).1 h
  simp [logCall, log, h1, h2, h3, h4]

theorem foldl_logCall_logs (env : Env) (calls : List LogCall) :
    ∀ st : State, (calls.foldl (logCall env) st).logs = st.logs := by
  induction calls with
  | nil => intro st; rfl
  | cons c calls ih => intro st; rw [List.foldl_cons, ih, logCall_logs]

/-- The write buffer after a run of accepted calls that started with an empty
buffer: one entry per distinct composite key, in order of first use, holding the
pairs logged for that key in order. -/
theorem queue_after_calls (env : Env) (st0 : State) (hq : st0.queue = [])
    (calls : List LogCall) (hacc : ∀ c ∈ calls, accepted env c = true) :
    (calls.foldl (logCall env) st0).queue =
      (firstOccurrences (calls.map callKey)).map (fun k => (k, pairsFor env calls k)) := by
  induction calls using List.reverseRecOn with
  | nil => simp [hq, firstOccurrences]
  | append_singleton done c ih =>
    have hdone : ∀ x ∈ done, accepted env x = true := fun x hx =>
      hacc x (List.mem_append_left _ hx)
    have hc : accepted env c = true := hacc c (by simp)
    rw [List.foldl_append, List.foldl_cons, List.foldl_nil, logCall_queue env _ c hc, ih hdone,
      List.map_append, List.map_cons, List.map_nil, firstOccurrences_append_singleton,
      lookup_map_self]
    by_cases hk : callKey c ∈ firstOccurrences (done.map callKey)
    · rw [if_pos hk, if_pos hk, Option.getD_some,
        put_map_of_mem _ (firstOccurrences_nodup _) _ _ _ hk]
      apply List.map_congr_left
      intro x _
      rw [pairsFor_append_singleton]
      by_cases hx : x = callKey c
      · subst hx; simp
      · have hx' : ¬ callKey c = x := fun h => hx h.symm
        simp [hx, hx']
    · rw [if_neg hk, if_neg hk, Option.getD_none, put_map_of_not_mem _ _ _ _ hk]
      apply List.map_congr_left
      intro x _
      rw [pairsFor_append_singleton]
      by_cases hx : x = callKey c
      · subst hx
        have := pairsFor_of_not_mem env done (callKey c)
          (fun h => hk ((mem_firstOccurrences _ _).2 h))
        simp [this]
      · have hx' : ¬ callKey c = x := fun h => hx h.symm
        simp [hx, hx']

theorem flushCycle_commands (st : State) :
    (flushCycle st).2.1 = st.queue.map (fun e => e.1 :: e.2) := rfl

theorem flushCycle_logs (st : State) :
    (flushCycle st).1.logs = (st.queue.map (fun e => e.1 :: e.2)).foldl hmset st.logs := rfl

theorem flushCycle_queue (st : State) : (flushCycle st).1.queue = [] := rfl

theorem sum_indicator_of_not_mem (ks : List Str) (a : Str) (ha : a ∉ ks) :
    (ks.map (fun k => if a = k then 1 else 0)).sum = 0 := by
  induction ks with
  | nil => rfl
  | cons k ks ih =>
    simp only [List.mem_cons, not_or] at ha
    simp [ha.1, ih ha.2]

theorem sum_indicator_of_mem (ks : List Str) (hnd : ks.Nodup) (a : Str) (ha : a ∈ ks) :
    (ks.map (fun k => if a = k then 1 else 0)).sum = 1 := by
  induction ks with
  | nil => simp at ha
  | cons k ks ih =>
    rw [List.nodup_cons] at hnd
    by_cases h : a = k
    · subst h
      simp [sum_indicator_of_not_mem ks a hnd.1]
    · have ha' : a ∈ ks := by
        rcases List.mem_cons.1 ha with h' | h'
        · exact absurd h' h
        · exact h'
      simp [h, ih hnd.2 ha']

theorem sum_filter_lengths (ks : List Str) (hnd : ks.Nodup) (calls : List LogCall)
    (hall : ∀ c ∈ calls, callKey c ∈ ks) :
    (ks.map (fun k => (calls.filter (fun c => callKey c = k)).length)).sum = calls.length := by
  induction calls with
  | nil => simp
  | cons c calls ih =>
    have h1 : ∀ k, ((c :: calls).filter (fun c => callKey c = k)).length =
        (if callKey c = k then 1 else 0) + (calls.filter (fun c => callKey c = k)).length := by
      intro k
      by_cases h : callKey c = k
      · simp [List.filter_cons, h, Nat.add_comm]
      · simp [List.filter_cons, h]
    simp only [h1, List.sum_map_add, List.length_cons]
    rw [sum_indicator_of_mem ks hnd _ (hall c (List.mem_cons_self c calls)),
      ih (fun x hx => hall x (List.mem_cons_of_mem c hx))]
    omega

theorem pairsFor_length (env : Env) (calls : List LogCall) (k : Str) :
    (pairsFor env calls k).length = 2 * (calls.filter (fun c => callKey c = k)).length := by
  unfold pairsFor
  induction calls.filter (fun c => callKey c = k) with
  | nil => rfl
  | cons a l ih => simp only [List.map_cons, List.flatten_cons, List.length_append, ih,
      List.length_cons, List.length_nil]; omega

/-- C6: a flush cycle that follows a run of accepted calls made on an empty
write buffer issues one `hmset` command per distinct composite key (in order of
first use), whose arguments are the key followed by the `timeKey, message`
pairs logged for that key in order of the calls; the commands carry as many
pairs as there were calls; the cycle installs an empty buffer; and a cycle that
captures an empty buffer issues no command. -/
theorem flush_one_command_per_key (env : Env) (st0 : State) (hq : st0.queue = [])
    (calls : List LogCall) (hacc : ∀ c ∈ calls, accepted env c = true) :
    (flushCycle (calls.foldl (logCall env) st0)).2.1 =
        (firstOccurrences (calls.map callKey)).map (fun k => k :: pairsFor env calls k) ∧
    (firstOccurrences (calls.map callKey)).Nodup ∧
    (∀ k, k ∈ firstOccurrences (calls.map callKey) ↔ k ∈ calls.map callKey) ∧
    (((flushCycle (calls.foldl (logCall env) st0)).2.1).map (fun cmd => cmd.length - 1)).sum =
        2 * calls.length ∧
    (flushCycle (calls.foldl (logCall env) st0)).1.queue = [] ∧
    (∀ s : State, s.queue = [] → (flushCycle s).2.1 = []) := by
  have hcmd : (flushCycle (calls.foldl (logCall env) st0)).2.1 =
      (firstOccurrences (calls.map callKey)).map (fun k => k :: pairsFor env calls k) := by
    rw [flushCycle_commands, queue_after_calls env st0 hq calls hacc, List.map_map]
    rfl
  refine ⟨hcmd, firstOccurrences_nodup _, mem_firstOccurrences _, ?_, rfl, ?_⟩
  · rw [hcmd, List.map_map]
    have hfun : ((fun cmd : List Str => cmd.length - 1) ∘ fun k => k :: pairsFor env calls k) =
        fun k => 2 * (calls.filter (fun c => callKey c = k)).length := by
      funext k
      simp [pairsFor_length]
    rw [hfun, List.sum_map_mul_left,
      sum_filter_lengths _ (firstOccurrences_nodup _) calls
        (fun c hc => (mem_firstOccurrences _ _).2 (List.mem_map_of_mem callKey hc))]
  · intro s hs
    rw [flushCycle_commands, hs]
    rfl

/-- Witness of `flush_one_command_per_key`: the three sample calls. -/
theorem flush_one_command_per_key_witness :
    (flushCycle (sampleCalls.foldl (logCall sampleEnv) emptyState)).2.1 =
        (firstOccurrences (sampleCalls.map callKey)).map
          (fun k => k :: pairsFor sampleEnv sampleCalls k) ∧
    (flushCycle (sampleCalls.foldl (logCall sampleEnv) emptyState)).2.1 =
      [["lobby:alice".toList, "15:06:11:13:20".toList, "hi".toList,
          "15:06:11:15:20".toList, "bye".toList],
       ["lobby:bob".toList, "15:06:11:14:20".toList, "yo".toList]] :=
  ⟨(flush_one_command_per_key sampleEnv emptyState rfl sampleCalls (by decide)).1, by decide⟩

theorem lookup_hmset_of_ne (db : LogStore) (cmd : List Str) (k : Str)
    (h : cmd.head? ≠ some k) : (hmset db cmd).lookup k = db.lookup k := by
  match cmd with
  | [] => rfl
  | [_] => rfl
  | key :: f :: args =>
    have hne : k ≠ key := by
      intro heq
      apply h
      simp [heq]
    simp only [hmset]
    split
    · rw [lookup_put, if_neg hne]
    · rfl

theorem lookup_foldl_hmset_of_ne (cmds : List (List Str)) (k : Str)
    (h : ∀ cmd ∈ cmds, cmd.head? ≠ some k) :
    ∀ db : LogStore, (cmds.foldl hmset db).lookup k = db.lookup k := by
  induction cmds with
  | nil => intro db; rfl
  | cons cmd cmds ih =>
    intro db
    rw [List.foldl_cons, ih (fun c hc => h c (List.mem_cons_of_mem cmd hc)),
      lookup_hmset_of_ne db cmd k (h cmd (List.mem_cons_self cmd cmds))]

theorem flushCycle_hkeys_of_not_queued (st : State) (k : Str)
    (hk : k ∉ st.queue.map Prod.fst) : hkeys (flushCycle st).1.logs k = hkeys st.logs k := by
  rw [flushCycle_logs]
  unfold hkeys
  rw [lookup_foldl_hmset_of_ne]
  intro cmd hcmd
  obtain ⟨e, he, rfl⟩ := List.mem_map.1 hcmd
  simp only [List.head?_cons, ne_eq, Option.some.injEq]
  intro heq
  exact hk (heq ▸ List.mem_map_of_mem Prod.fst he)

theorem getLineCount_of_no_fields (today : Today) (db : LogStore) (room userid : Str)
    (h : hkeys db (room ++ ':' :: userid) = []) :
    (getLineCount today db room userid).1 = [] := by
  simp [getLineCount, h, lineCountLoop]

/-- C7: a call of `log` made while logging is disabled, or with a timestamp that
does not parse as an integer, or with a falsy `userid` or `room`, returns the
state it was given (write buffer, room registry, `seen` database and all the
rest unchanged); so a `getLineCount` for a user and room without prior data,
stored or buffered, returns the empty mapping, before and after a flush. -/
theorem log_dropped_changes_nothing (env : Env) (st : State) (timestamp : Str)
    (room userid : Option Str) (message : Str)
    (h : env.disableLogging = true ∨ parseInt timestamp = none ∨
      truthy userid = false ∨ truthy room = false)
    (today : Today) (qroom quser : Str) :
    log env st timestamp room userid message = st ∧
    (hkeys st.logs (qroom ++ ':' :: quser) = [] →
      (getLineCount today (log env st timestamp room userid message).logs qroom quser).1 = []) ∧
    (hkeys st.logs (qroom ++ ':' :: quser) = [] →
      (qroom ++ ':' :: quser) ∉ st.queue.map Prod.fst →
      (getLineCount today
        (flushCycle (log env st timestamp room userid message)).1.logs qroom quser).1 = []) := by
  have hlog : log env st timestamp room userid message = st := by
    unfold log
    rcases h with h | h | h | h
    · simp [h]
    · simp [h]
    · cases hd : env.disableLogging
      · cases hp : parseInt timestamp <;> simp [h]
      · simp
    · cases hd : env.disableLogging
      · cases hp : parseInt timestamp <;> simp [h]
      · simp
  rw [hlog]
  refine ⟨rfl, getLineCount_of_no_fields today st.logs qroom quser, ?_⟩
  intro h1 h2
  apply getLineCount_of_no_fields
  rw [flushCycle_hkeys_of_not_queued st _ h2, h1]

/-- Witness of `log_dropped_changes_nothing`: a call whose timestamp is not a
number. -/
theorem log_dropped_changes_nothing_witness :
    log sampleEnv emptyState "soon".toList (some "lobby".toList) (some "alice".toList)
      "hi".toList = emptyState :=
  (log_dropped_changes_nothing sampleEnv emptyState "soon".toList (some "lobby".toList)
    (some "alice".toList) "hi".toList (Or.inr (Or.inl (by decide))) ⟨15, 5⟩
    "lobby".toList "alice".toList).1

theorem lookup_hmset_self (db : LogStore) (k : Str) (args : List Str) :
    (hmset db (k :: args)).lookup k = hmsetAt (db.lookup k) args := by
  match args with
  | [] => rfl
  | f :: args =>
    simp only [hmset, hmsetAt]
    split
    · rw [lookup_put, if_pos rfl]
    · rfl

theorem lookup_foldl_hmset_self (pf : Str → List Str) (ks : List Str) (hnd : ks.Nodup)
    (k : Str) (hk : k ∈ ks) :
    ∀ db : LogStore,
      ((ks.map (fun x => x :: pf x)).foldl hmset db).lookup k = hmsetAt (db.lookup k) (pf k) := by
  induction ks with
  | nil => simp at hk
  | cons a ks ih =>
    intro db
    rw [List.nodup_cons] at hnd
    rw [List.map_cons, List.foldl_cons]
    by_cases h : k = a
    · subst h
      rw [lookup_foldl_hmset_of_ne, lookup_hmset_self]
      intro cmd hcmd
      obtain ⟨x, hx, rfl⟩ := List.mem_map.1 hcmd
      simp only [List.head?_cons, ne_eq, Option.some.injEq]
      intro hxk
      exact hnd.1 (hxk ▸ hx)
    · have hk' : k ∈ ks := by
        rcases List.mem_cons.1 hk with h' | h'
        · exact absurd h' h
        · exact h'
      rw [ih hnd.2 hk', lookup_hmset_of_ne]
      simp only [List.head?_cons, ne_eq, Option.some.injEq]
      exact fun hak => h hak.symm

theorem hsetMany_pairs {α : Type} (f g : α → Str) (l : List α) :
    ∀ h : Hash, hsetMany h ((l.map (fun c => [f c, g c])).flatten) =
      some (l.foldl (fun h c => put h (f c) (g c)) h) := by
  induction l with
  | nil => intro h; simp [hsetMany]
  | cons a l ih =>
    intro h
    simp only [List.map_cons, List.flatten_cons, List.cons_append, List.nil_append, hsetMany,
      List.foldl_cons]
    exact ih _

theorem foldl_put_keys {α : Type} (f g : α → Str) (l : List α) :
    ∀ h : Hash, (l.foldl (fun h c => put h (f c) (g c)) h).map Prod.fst =
      (l.map f).foldl (fun acc k => if k ∈ acc then acc else acc ++ [k]) (h.map Prod.fst) := by
  induction l with
  | nil => intro h; rfl
  | cons a l ih =>
    intro h
    rw [List.foldl_cons, ih, put_keys, List.map_cons, List.foldl_cons]

theorem foldl_addNew_of_nodup (l : List Str) :
    ∀ acc : List Str, (acc ++ l).Nodup →
      l.foldl (fun acc k => if k ∈ acc then acc else acc ++ [k]) acc = acc ++ l := by
  induction l with
  | nil => intro acc _; simp
  | cons a l ih =>
    intro acc h
    have ha : a ∉ acc := by
      intro hmem
      rw [List.nodup_append] at h
      exact h.2.2 hmem (List.mem_cons_self a l)
    rw [List.foldl_cons, if_neg ha, ih]
    · simp
    · simpa using h

theorem firstOccurrences_of_nodup (l : List Str) (h : l.Nodup) : firstOccurrences l = l := by
  have := foldl_addNew_of_nodup l [] (by simpa using h)
  simpa [firstOccurrences] using this

/-! ## Time-keys of the current day -/

theorem splitColon_append (a rest : Str) (ha : ':' ∉ a) :
    splitColon (a ++ ':' :: rest) = a :: splitColon rest := by
  induction a with
  | nil => simp [splitColon]
  | cons c a ih =>
    simp only [List.mem_cons, not_or] at ha
    have hc : ¬ c = ':' := fun h => ha.1 h.symm
    rw [List.cons_append, splitColon, if_neg hc, ih ha.2]

theorem colon_not_mem_leftpad (v : Nat) : ':' ∉ leftpad (some v) := by
  intro h
  exact absurd (leftpad_isDigit v ':' h) (by unfold isDigitChar; decide)

theorem timeKey_fields (date : JSDate) (d m : Nat)
    (hd : date.utcDate = some d) (hm : date.utcMonth = some m) :
    (splitColon (timeKey date))[0]? = some (leftpad (some d)) ∧
    (splitColon (timeKey date))[1]? = some (leftpad (some (m + 1))) := by
  simp only [timeKey, hd, hm, succNum]
  rw [splitColon_append _ _ (colon_not_mem_leftpad d),
    splitColon_append _ _ (colon_not_mem_leftpad (m + 1))]
  simp

/-- A time-key built for a date of the current UTC month is not stale. -/
theorem timeKey_not_stale (today : Today) (date : JSDate) (d : Nat)
    (hd : date.utcDate = some d) (hm : date.utcMonth = some today.utcMonth) :
    isStale today (timeKey date) = false := by
  apply not_stale_of_current_month
  rw [(timeKey_fields date d today.utcMonth hd hm).2]
  simp [parseIntOpt, parseInt_leftpad]

theorem protoNames_no_slash : ∀ n ∈ protoNames, '/' ∉ n := by decide

theorem label_not_proto (a b : Str) :
    a ++ '/' :: b ∉ protoNames ∧ a ++ '/' :: b ≠ protoKey := by
  have hmem : '/' ∈ a ++ '/' :: b := by simp
  constructor
  · intro h
    exact protoNames_no_slash _ h hmem
  · intro h
    rw [h] at hmem
    revert hmem
    decide

theorem increment_nil (lab : Str) (h1 : lab ∉ protoNames) (h2 : lab ≠ protoKey) :
    increment [] lab = [(lab, some 1)] := by
  simp [increment, hasProp, h1, setProp, h2, put, List.lookup]

theorem increment_single (lab : Str) (n : Nat) (h2 : lab ≠ protoKey) :
    increment [(lab, some n)] lab = [(lab, some (n + 1))] := by
  simp [increment, hasProp, setProp, h2, put, List.lookup]

theorem lineCountLoop_uniform (today : Today) (lab : Str) (h2 : lab ≠ protoKey) (L : List Str)
    (hL : ∀ key ∈ L, isStale today key = false ∧
      tpl (splitColon key)[0]? ++ '/' :: tpl (splitColon key)[1]? = lab) :
    ∀ (n : Nat) (tp : List Str),
      lineCountLoop today L ([(lab, some n)], tp) = ([(lab, some (n + L.length))], tp) := by
  induction L with
  | nil => intro n tp; simp [lineCountLoop]
  | cons a L ih =>
    intro n tp
    obtain ⟨ha1, ha2⟩ := hL a (List.mem_cons_self a L)
    simp only [lineCountLoop, ha1, ha2, increment_single lab n h2, Bool.false_eq_true, if_false]
    rw [ih (fun k hk => hL k (List.mem_cons_of_mem a hk)), List.length_cons,
      show n + 1 + L.length = n + (L.length + 1) by omega]

theorem lineCountLoop_uniform_start (today : Today) (lab : Str)
    (h1 : lab ∉ protoNames) (h2 : lab ≠ protoKey) (L : List Str)
    (hL : ∀ key ∈ L, isStale today key = false ∧
      tpl (splitColon key)[0]? ++ '/' :: tpl (splitColon key)[1]? = lab) :
    lineCountLoop today L ([], []) =
      (if L = [] then [] else [(lab, some L.length)], []) := by
  cases L with
  | nil => simp [lineCountLoop]
  | cons a L =>
    obtain ⟨ha1, ha2⟩ := hL a (List.mem_cons_self a L)
    simp only [lineCountLoop, ha1, ha2, increment_nil lab h1 h2, Bool.false_eq_true, if_false]
    rw [lineCountLoop_uniform today lab h2 L (fun k hk => hL k (List.mem_cons_of_mem a hk))]
    simp [Nat.add_comm]

/-! ## Visibility of buffered messages -/

theorem hkeys_after_flush (env : Env) (st0 : State) (hq : st0.queue = [])
    (calls : List LogCall) (hacc : ∀ c ∈ calls, accepted env c = true) (key : Str)
    (hstore : hkeys st0.logs key = []) :
    hkeys (flushCycle (calls.foldl (logCall env) st0)).1.logs key =
      firstOccurrences ((calls.filter (fun c => callKey c = key)).map (callTimeKey env)) := by
  have hold : (st0.logs.lookup key).getD [] = [] := by
    simpa [hkeys] using hstore
  rw [flushCycle_logs, queue_after_calls env st0 hq calls hacc, foldl_logCall_logs, List.map_map]
  by_cases hk : key ∈ firstOccurrences (calls.map callKey)
  · have hl := lookup_foldl_hmset_self (pairsFor env calls) _ (firstOccurrences_nodup _) key hk
      st0.logs
    have hfun : ((fun e : Str × List Str => e.1 :: e.2) ∘ fun k => (k, pairsFor env calls k)) =
        fun x => x :: pairsFor env calls x := rfl
    rw [hfun]
    unfold hkeys
    rw [hl]
    obtain ⟨c, hc, hck⟩ := List.mem_map.1 ((mem_firstOccurrences _ _).1 hk)
    have hmine : c ∈ calls.filter (fun c => callKey c = key) := by
      simp [List.mem_filter, hc, hck]
    obtain ⟨c0, rest, hcr⟩ := List.exists_cons_of_ne_nil (List.ne_nil_of_mem hmine)
    have hargs := hsetMany_pairs (callTimeKey env) (fun c => c.message)
      (calls.filter (fun c => callKey c = key)) []
    have hat : hmsetAt (st0.logs.lookup key) (pairsFor env calls key) =
        some ((calls.filter (fun c => callKey c = key)).foldl
          (fun h c => put h (callTimeKey env c) c.message) []) := by
      have hne : pairsFor env calls key =
          callTimeKey env c0 :: c0.message ::
            (rest.map (fun c => [callTimeKey env c, c.message])).flatten := by
        simp [pairsFor, hcr]
      unfold hmsetAt
      rw [hne]
      simp only
      rw [← hne, hold]
      unfold pairsFor
      rw [hargs]
    rw [hat, Option.getD_some, foldl_put_keys]
    rfl
  · have hnone : calls.filter (fun c => callKey c = key) = [] := by
      rw [List.filter_eq_nil_iff]
      intro c hc
      simp only [decide_eq_true_eq]
      intro h
      exact hk ((mem_firstOccurrences _ _).2 (h ▸ List.mem_map_of_mem callKey hc))
    rw [hnone]
    unfold hkeys
    rw [lookup_foldl_hmset_of_ne, hold]
    · rfl
    · intro cmd hcmd
      obtain ⟨x, hx, rfl⟩ := List.mem_map.1 hcmd
      simp only [Function.comp, List.head?_cons, ne_eq, Option.some.injEq]
      intro hxk
      exact hk (hxk ▸ hx)

/-- C5 fails as stated: two accepted calls by the same user in the same room and
the same second of the current UTC day get one time-key, so after the flush
`getLineCount` counts one message, not two. -/
theorem line_count_same_second_counterexample :
    (∀ c ∈ sameSecondCalls, accepted sampleEnv c = true ∧
      callKey c = "lobby:alice".toList ∧
      (callDate sampleEnv c).utcDate = some 15 ∧ (callDate sampleEnv c).utcMonth = some 5) ∧
    sameSecondCalls.length = 2 ∧
    hkeys emptyState.logs "lobby:alice".toList = [] ∧
    (getLineCount ⟨15, 5⟩
      (flushCycle (sameSecondCalls.foldl (logCall sampleEnv) emptyState)).1.logs
      "lobby".toList "alice".toList).1 = [("15/06".toList, some 1)] := by
  decide

/-- C5 (as the code has it): start with an empty write buffer and no stored data
for `room:userid`, and make accepted calls of `log`, those for `room:userid`
having timestamps on the current UTC day. Before any flush `getLineCount(room,
userid)` returns the empty mapping. After a flush cycle it returns the single
entry `day/month` of today with the number of distinct time-keys of those calls
(calls in the same second share a time-key and are stored once); that number is
the number of calls when their time-keys are pairwise distinct. -/
theorem line_count_after_flush (env : Env) (st0 : State) (hq : st0.queue = [])
    (calls : List LogCall) (hacc : ∀ c ∈ calls, accepted env c = true)
    (today : Today) (room userid : Str)
    (hstore : hkeys st0.logs (room ++ ':' :: userid) = [])
    (hday : ∀ c ∈ calls, callKey c = room ++ ':' :: userid →
      (callDate env c).utcDate = some today.utcDate ∧
      (callDate env c).utcMonth = some today.utcMonth) :
    (getLineCount today (calls.foldl (logCall env) st0).logs room userid).1 = [] ∧
    (getLineCount today (flushCycle (calls.foldl (logCall env) st0)).1.logs room userid).1 =
      (if calls.filter (fun c => callKey c = room ++ ':' :: userid) = [] then []
       else [(leftpad (some today.utcDate) ++ '/' :: leftpad (some (today.utcMonth + 1)),
              some (firstOccurrences ((calls.filter
                (fun c => callKey c = room ++ ':' :: userid)).map (callTimeKey env))).length)]) ∧
    (((calls.filter (fun c => callKey c = room ++ ':' :: userid)).map (callTimeKey env)).Nodup →
      (firstOccurrences ((calls.filter
          (fun c => callKey c = room ++ ':' :: userid)).map (callTimeKey env))).length =
        (calls.filter (fun c => callKey c = room ++ ':' :: userid)).length) := by
  refine ⟨?_, ?_, ?_⟩
  · apply getLineCount_of_no_fields
    rw [foldl_logCall_logs, hstore]
  · have hk := hkeys_after_flush env st0 hq calls hacc (room ++ ':' :: userid) hstore
    have hlab := label_not_proto (leftpad (some today.utcDate))
      (leftpad (some (today.utcMonth + 1)))
    have hL : ∀ key ∈ firstOccurrences
        ((calls.filter (fun c => callKey c = room ++ ':' :: userid)).map (callTimeKey env)),
        isStale today key = false ∧
          tpl (splitColon key)[0]? ++ '/' :: tpl (splitColon key)[1]? =
            leftpad (some today.utcDate) ++ '/' :: leftpad (some (today.utcMonth + 1)) := by
      intro key hkey
      obtain ⟨c, hc, rfl⟩ := List.mem_map.1 ((mem_firstOccurrences _ _).1 hkey)
      obtain ⟨hc1, hc2⟩ := List.mem_filter.1 hc
      obtain ⟨hd, hm⟩ := hday c hc1 (by simpa using hc2)
      obtain ⟨hf0, hf1⟩ := timeKey_fields (callDate env c) _ _ hd hm
      refine ⟨timeKey_not_stale today _ _ hd hm, ?_⟩
      simp only [callTimeKey, hf0, hf1, tpl]
    have hloop := lineCountLoop_uniform_start today _ hlab.1 hlab.2 _ hL
    simp only [getLineCount, hk, hloop]
    by_cases hnil : calls.filter (fun c => callKey c = room ++ ':' :: userid) = []
    · simp [hnil, firstOccurrences]
    · have hne : firstOccurrences ((calls.filter
          (fun c => callKey c = room ++ ':' :: userid)).map (callTimeKey env)) ≠ [] := by
        obtain ⟨c, rest, hcr⟩ := List.exists_cons_of_ne_nil hnil
        have : callTimeKey env c ∈ firstOccurrences ((calls.filter
            (fun c => callKey c = room ++ ':' :: userid)).map (callTimeKey env)) := by
          rw [mem_firstOccurrences, hcr]
          simp
        exact List.ne_nil_of_mem this
      rw [if_neg hne, if_neg hnil]
  · intro hnd
    rw [firstOccurrences_of_nodup _ hnd, List.length_map]

/-- Witness of `line_count_after_flush`: the three sample calls on 15 June
2024, counted for `alice` in `lobby`. -/
theorem line_count_after_flush_witness :
    (getLineCount ⟨15, 5⟩ (flushCycle (sampleCalls.foldl (logCall sampleEnv) emptyState)).1.logs
        "lobby".toList "alice".toList).1 =
      (if sampleCalls.filter (fun c => callKey c = "lobby".toList ++ ':' :: "alice".toList) = []
        then []
       else [(leftpad (some 15) ++ '/' :: leftpad (some (5 + 1)),
              some (firstOccurrences ((sampleCalls.filter
                (fun c => callKey c = "lobby".toList ++ ':' :: "alice".toList)).map
                  (callTimeKey sampleEnv))).length)]) ∧
    (getLineCount ⟨15, 5⟩ (flushCycle (sampleCalls.foldl (logCall sampleEnv) emptyState)).1.logs
        "lobby".toList "alice".toList).1 = [("15/06".toList, some 2)] :=
  ⟨(line_count_after_flush sampleEnv emptyState rfl sampleCalls (by decide) ⟨15, 5⟩
      "lobby".toList "alice".toList (by decide) (by decide)).2.1, by decide⟩

/-! ## Sorting -/

theorem insertByCmp_perm {α : Type} (cmp : α → α → Int) (x : α) (l : List α) :
    (insertByCmp cmp x l).Perm (x :: l) := by
  induction l with
  | nil => exact List.Perm.refl _
  | cons y ys ih =>
    unfold insertByCmp
    split
    · exact List.Perm.refl _
    · exact (ih.cons y).trans (List.Perm.swap x y ys)

theorem foldl_insertByCmp_perm {α : Type} (cmp : α → α → Int) (xs : List α) :
    ∀ acc : List α, (xs.foldl (fun acc x => insertByCmp cmp x acc) acc).Perm (xs ++ acc) := by
  induction xs with
  | nil => intro acc; exact List.Perm.refl _
  | cons x xs ih =>
    intro acc
    rw [List.foldl_cons]
    refine (ih _).trans ?_
    refine (List.Perm.append_left xs (insertByCmp_perm cmp x acc)).trans ?_
    exact List.perm_middle

theorem arraySort_perm {α : Type} (cmp : α → α → Int) (xs : List α) :
    (arraySort cmp xs).Perm xs := by
  have := foldl_insertByCmp_perm cmp xs []
  simpa [arraySort] using this

theorem entries_perm {β : Type} (o : JSObj β) : (entries o).Perm o := by
  unfold entries
  exact (List.Perm.append_right _ (List.perm_insertionSort _ _)).trans
    (List.filter_append_perm _ o)

theorem byCountDesc_neg (a b : Str × Nat) : byCountDesc a b < 0 ↔ a.2 > b.2 := by
  unfold byCountDesc
  split <;> simp_all

theorem insertByCmp_sorted (x : Str × Nat) (l : List (Str × Nat))
    (h : l.Pairwise (fun a b => a.2 ≥ b.2)) :
    (insertByCmp byCountDesc x l).Pairwise (fun a b => a.2 ≥ b.2) := by
  induction l with
  | nil => simp [insertByCmp]
  | cons y ys ih =>
    rw [List.pairwise_cons] at h
    unfold insertByCmp
    split
    · rename_i hlt
      rw [byCountDesc_neg] at hlt
      rw [List.pairwise_cons]
      refine ⟨?_, List.pairwise_cons.2 h⟩
      intro b hb
      rcases List.mem_cons.1 hb with rfl | hb
      · exact Nat.le_of_lt hlt
      · exact Nat.le_trans (h.1 b hb) (Nat.le_of_lt hlt)
    · rename_i hlt
      rw [byCountDesc_neg] at hlt
      rw [List.pairwise_cons]
      refine ⟨?_, ih h.2⟩
      intro b hb
      rcases List.mem_cons.1 ((insertByCmp_perm byCountDesc x ys).mem_iff.1 hb) with rfl | hb
      · exact Nat.le_of_not_lt hlt
      · exact h.1 b hb

theorem arraySort_byCountDesc_sorted (xs : List (Str × Nat)) :
    (arraySort byCountDesc xs).Pairwise (fun a b => a.2 ≥ b.2) := by
  unfold arraySort
  apply foldl_preserves (fun acc : List (Str × Nat) => acc.Pairwise (fun a b => a.2 ≥ b.2))
  · intro acc x hacc
    exact insertByCmp_sorted x acc hacc
  · exact List.Pairwise.nil

/-- C9: for every database, current date, room and options, the pairs returned
by `getUserActivity` are sorted by count, descending (every pair's count is at
least the count of every later pair), and are a permutation of the per-user
counts that the scan computed; the counts alice 3, bob 5, carol 1 come back as
bob, alice, carol. -/
theorem user_activity_sorted (today : Today) (db : LogStore) (room : Str)
    (options : ActivityOptions) :
    (getUserActivity today db room options).1.Pairwise (fun a b => a.2 ≥ b.2) ∧
    (getUserActivity today db room options).1.Perm
      ((keys db (room ++ ":*".toList)).foldl (userActivityStep today options) ([], db)).1 ∧
    arraySort byCountDesc
        (entries [("alice".toList, 3), ("bob".toList, 5), ("carol".toList, 1)]) =
      [("bob".toList, 5), ("alice".toList, 3), ("carol".toList, 1)] ∧
    (getUserActivity ⟨15, 5⟩ activityStore "lobby".toList ⟨false, none⟩).1 =
      [("bob".toList, 5), ("alice".toList, 3), ("carol".toList, 1)] := by
  refine ⟨arraySort_byCountDesc_sorted _, ?_, by decide, by decide⟩
  exact (arraySort_perm _ _).trans (entries_perm _)

/-! ## Keys of a room -/

theorem tokenizeAux_plain (pre : Str) (hpre : ∀ c ∈ pre, isGlobMeta c = false) (suf : Str) :
    ∀ n : Nat, pre.length < n →
      tokenizeAux n none (pre ++ suf) =
        pre.map GlobTok.lit ++ tokenizeAux (n - pre.length) none suf := by
  induction pre with
  | nil => intro n _; simp
  | cons c pre ih =>
    intro n hn
    obtain ⟨m, rfl⟩ : ∃ m, n = m + 1 := ⟨n - 1, by simp at hn; omega⟩
    have hc := hpre c (List.mem_cons_self c pre)
    simp only [isGlobMeta, Bool.or_eq_false_iff, decide_eq_false_iff_not] at hc
    obtain ⟨⟨⟨h1, h2⟩, h3⟩, h4⟩ := hc
    have hih := ih (fun x hx => hpre x (List.mem_cons_of_mem c hx)) m (by simp at hn; omega)
    simp only [List.cons_append, tokenizeAux, h1, h2, h3, h4, if_false]
    rw [show pre.append suf = pre ++ suf from rfl, hih]
    simp

theorem tokenize_room_pattern (room : Str) (hroom : ∀ c ∈ room, isGlobMeta c = false) :
    tokenize (room ++ ":*".toList) =
      room.map GlobTok.lit ++ [GlobTok.lit ':', GlobTok.star] := by
  have h2 : (":*".toList).length = 2 := rfl
  unfold tokenize
  rw [tokenizeAux_plain room hroom _ _ (by simp only [List.length_append, h2]; omega)]
  have hlen : (room ++ ":*".toList).length + 1 - room.length = 3 := by
    simp only [List.length_append, h2]
    omega
  rw [hlen]
  rfl

theorem matchToks_lits (pre : Str) (ts : List GlobTok) :
    ∀ key : Str, matchToks (pre.map GlobTok.lit ++ ts) key = true ↔
      ∃ rest, key = pre ++ rest ∧ matchToks ts rest = true := by
  induction pre with
  | nil => intro key; simp
  | cons c pre ih =>
    intro key
    cases key with
    | nil => simp [matchToks]
    | cons d key =>
      have hstep : matchToks (GlobTok.lit c :: (pre.map GlobTok.lit ++ ts)) (d :: key) =
          (decide (c = d) && matchToks (pre.map GlobTok.lit ++ ts) key) := by
        simp [matchToks]
      rw [List.map_cons, List.cons_append, hstep, Bool.and_eq_true, decide_eq_true_eq, ih key]
      constructor
      · rintro ⟨hcd, rest, hkey, h⟩
        exact ⟨rest, by rw [hcd, hkey]; rfl, h⟩
      · rintro ⟨rest, hkey, h⟩
        rw [List.cons_append, List.cons.injEq] at hkey
        exact ⟨hkey.1.symm, rest, hkey.2, h⟩

theorem matchToks_star (s : Str) : matchToks [GlobTok.star] s = true := by
  simp only [matchToks, List.any_eq_true]
  exact ⟨[], by simp, by simp [matchToks]⟩

/-- A key matches the pattern of a room without glob characters exactly when it
starts with the room and a colon. -/
theorem globMatch_room (room : Str) (hroom : ∀ c ∈ room, isGlobMeta c = false) (key : Str) :
    globMatch (room ++ ":*".toList) key = true ↔ ∃ u, key = room ++ ':' :: u := by
  unfold globMatch
  rw [tokenize_room_pattern room hroom, matchToks_lits]
  constructor
  · rintro ⟨rest, rfl, h⟩
    cases rest with
    | nil => simp [matchToks] at h
    | cons d rest =>
      simp only [matchToks, Bool.and_eq_true, decide_eq_true_eq] at h
      exact ⟨rest, by rw [h.1]⟩
  · rintro ⟨u, rfl⟩
    exact ⟨':' :: u, rfl, by simp [matchToks, matchToks_star]⟩

theorem splitColon_of_no_colon (u : Str) (hu : ':' ∉ u) : splitColon u = [u] := by
  induction u with
  | nil => rfl
  | cons c u ih =>
    simp only [List.mem_cons, not_or] at hu
    have hc : ¬ c = ':' := fun h => hu.1 h.symm
    rw [splitColon, if_neg hc, ih hu.2]

theorem user_of_key (room u : Str) (hroom : ':' ∉ room) (hu : ':' ∉ u) :
    tpl (splitColon (room ++ ':' :: u))[1]? = u := by
  rw [splitColon_append room u hroom, splitColon_of_no_colon u hu]
  rfl

/-! ## The scan of `getUserActivity` -/

theorem hkeys_cons_of_ne (e : Str × Hash) (db : LogStore) (k : Str) (h : k ≠ e.1) :
    hkeys (e :: db) k = hkeys db k := by
  obtain ⟨ak, av⟩ := e
  have hb : (k == ak) = false := by simpa using h
  simp [hkeys, List.lookup, hb]

theorem hkeys_cons_self (e : Str × Hash) (db : LogStore) :
    hkeys (e :: db) e.1 = e.2.map Prod.fst := by
  obtain ⟨ak, av⟩ := e
  simp [hkeys, List.lookup]

theorem hdel_cons (a : Str × Hash) (db : LogStore) (key : Str) (fs : List Str) :
    hdel (a :: db) (key :: fs) =
      (if a.1 = key then
        (if a.2.filter (fun p => !fs.contains p.1) = [] then []
         else [(a.1, a.2.filter (fun p => !fs.contains p.1))])
       else [a]) ++ hdel db (key :: fs) := by
  simp only [hdel, List.filterMap_cons]
  by_cases hak : a.1 = key
  · by_cases hnil : a.2.filter (fun p => !fs.contains p.1) = []
    · simp only [if_pos hak, if_pos hnil, List.nil_append]
    · simp only [if_pos hak, if_neg hnil, List.singleton_append]
  · simp only [if_neg hak, List.singleton_append]

theorem hkeys_hdel_of_ne (db : LogStore) (key : Str) (fs : List Str) (k : Str) (hk : k ≠ key) :
    hkeys (hdel db (key :: fs)) k = hkeys db k := by
  induction db with
  | nil => rfl
  | cons a db ih =>
    rw [hdel_cons]
    by_cases hak : a.1 = key
    · have hka : k ≠ a.1 := by rw [hak]; exact hk
      rw [hkeys_cons_of_ne a db k hka, if_pos hak]
      by_cases hnil : a.2.filter (fun p => !fs.contains p.1) = []
      · rw [if_pos hnil, List.nil_append]
        exact ih
      · rw [if_neg hnil, List.singleton_append,
          hkeys_cons_of_ne (a.1, a.2.filter (fun p => !fs.contains p.1)) _ k hka]
        exact ih
    · rw [if_neg hak, List.singleton_append]
      by_cases hka : k = a.1
      · subst hka
        rw [hkeys_cons_self, hkeys_cons_self]
      · rw [hkeys_cons_of_ne a _ k hka, hkeys_cons_of_ne a _ k hka]
        exact ih

theorem hkeys_pruneFields_of_ne (db : LogStore) (key : Str) (toPrune : List Str) (k : Str)
    (hk : k ≠ key) : hkeys (pruneFields db key toPrune) k = hkeys db k := by
  unfold pruneFields
  split
  · rfl
  · exact hkeys_hdel_of_ne db key toPrune k hk

theorem lookup_setProp_of_ne {β : Type} (o : JSObj β) (k : Str) (v : β) (k' : Str)
    (h : k' ≠ k) : (setProp o k v).lookup k' = o.lookup k' := by
  unfold setProp
  split
  · rfl
  · rw [lookup_put, if_neg h]

theorem lookup_setProp_self {β : Type} (o : JSObj β) (k : Str) (v : β) (h : k ≠ protoKey) :
    (setProp o k v).lookup k = some v := by
  unfold setProp
  rw [if_neg h, lookup_put, if_pos rfl]

theorem filter_not_contains_filter (p : Str → Bool) (l : List Str) :
    l.filter (fun key => !(l.filter p).contains key) = l.filter (fun key => !p key) := by
  apply List.filter_congr
  intro x hx
  cases hp : p x <;> simp [List.mem_filter, hx, hp]

/-- The count that one iteration of the scan stores is the specified count,
unless the `time` option is the Number 0. -/
theorem userActivityStep_count (today : Today) (options : ActivityOptions)
    (h0 : options.time ≠ some 0) (acc : JSObj Nat × LogStore) (userKey : Str) :
    (userActivityStep today options acc userKey).1 =
      setProp acc.1 (tpl (splitColon userKey)[1]?)
        (activityCount today options (hkeys acc.2 userKey)) := by
  have hst : (fun key => staleTest today (splitColon key)[0]? (splitColon key)[1]?) =
      isStale today := rfl
  simp only [userActivityStep, activityCount, hst, filter_not_contains_filter]
  congr 2
  cases hday : options.day <;> cases htime : options.time with
  | none => simp [List.filter_filter, Bool.and_comm]
  | some h =>
    have hh : h ≠ 0 := fun hz => h0 (by rw [htime, hz])
    simp [List.filter_filter, Bool.and_comm, hh, Bool.and_assoc]

theorem userActivity_fold_other (today : Today) (options : ActivityOptions) (user : Str)
    (us : List Str) (hus : ∀ k ∈ us, tpl (splitColon k)[1]? ≠ user) :
    ∀ acc : JSObj Nat × LogStore,
      (us.foldl (userActivityStep today options) acc).1.lookup user = acc.1.lookup user := by
  induction us with
  | nil => intro acc; rfl
  | cons k us ih =>
    intro acc
    rw [List.foldl_cons, ih (fun x hx => hus x (List.mem_cons_of_mem k hx))]
    simp only [userActivityStep]
    exact lookup_setProp_of_ne _ _ _ _ (fun h => hus k (List.mem_cons_self k us) h.symm)

theorem userActivity_fold_lookup (today : Today) (options : ActivityOptions)
    (h0 : options.time ≠ some 0) (room : Str) (hroom : ':' ∉ room) (us : List Str)
    (hnd : us.Nodup) (hus : ∀ k ∈ us, ∃ u, k = room ++ ':' :: u ∧ ':' ∉ u)
    (user : Str) (huser : ':' ∉ user) (hproto : user ≠ protoKey)
    (hmem : room ++ ':' :: user ∈ us) :
    ∀ acc : JSObj Nat × LogStore,
      (us.foldl (userActivityStep today options) acc).1.lookup user =
        some (activityCount today options (hkeys acc.2 (room ++ ':' :: user))) := by
  induction us with
  | nil => simp at hmem
  | cons k us ih =>
    intro acc
    rw [List.nodup_cons] at hnd
    rw [List.foldl_cons]
    by_cases hk : room ++ ':' :: user = k
    · subst hk
      rw [userActivity_fold_other]
      · rw [userActivityStep_count today options h0, user_of_key room user hroom huser,
          lookup_setProp_self _ _ _ hproto]
      · intro x hx hxu
        obtain ⟨u, rfl, hu⟩ := hus x (List.mem_cons_of_mem _ hx)
        rw [user_of_key room u hroom hu] at hxu
        rw [hxu] at hx
        exact hnd.1 hx
    · have hmem' : room ++ ':' :: user ∈ us := by
        rcases List.mem_cons.1 hmem with h | h
        · exact absurd h hk
        · exact h
      rw [ih hnd.2 (fun x hx => hus x (List.mem_cons_of_mem k hx)) hmem']
      simp only [userActivityStep]
      rw [hkeys_pruneFields_of_ne _ _ _ _ hk]

theorem mem_of_lookup_eq_some {β : Type} (l : List (Str × β)) (k : Str) (v : β)
    (h : l.lookup k = some v) : (k, v) ∈ l := by
  induction l with
  | nil => simp [List.lookup] at h
  | cons a l ih =>
    obtain ⟨ak, av⟩ := a
    by_cases hk : k = ak
    · subst hk
      simp only [List.lookup, beq_self_eq_true, Option.some.injEq] at h
      simp [h]
    · have hb : (k == ak) = false := by simpa using hk
      simp only [List.lookup, hb] at h
      exact List.mem_cons_of_mem _ (ih h)

/-- C10, away from the hour 0: in a database that is a map, for a room without
colon or glob character whose users have no colon in their id, and options
whose `time` is absent or a Number other than 0, `getUserActivity` reports for
each composite key `room:user` (`user` other than `__proto__`) the specified
count of that key's time-keys. -/
theorem user_activity_reports (today : Today) (db : LogStore) (hwf : StoreWF db)
    (room : Str) (hroom : ∀ c ∈ room, isGlobMeta c = false) (hcolon : ':' ∉ room)
    (husers : ∀ u, room ++ ':' :: u ∈ db.map Prod.fst → ':' ∉ u)
    (options : ActivityOptions) (h0 : options.time ≠ some 0)
    (user : Str) (hproto : user ≠ protoKey)
    (hmem : room ++ ':' :: user ∈ db.map Prod.fst) :
    (user, activityCount today options (hkeys db (room ++ ':' :: user))) ∈
      (getUserActivity today db room options).1 := by
  have hkeysmem : ∀ k, k ∈ keys db (room ++ ":*".toList) ↔
      k ∈ db.map Prod.fst ∧ ∃ u, k = room ++ ':' :: u := by
    intro k
    simp only [keys, List.mem_filter, globMatch_room room hroom]
  have hnd : (keys db (room ++ ":*".toList)).Nodup := List.Nodup.filter _ hwf
  have hus : ∀ k ∈ keys db (room ++ ":*".toList), ∃ u, k = room ++ ':' :: u ∧ ':' ∉ u := by
    intro k hk
    obtain ⟨hk1, u, rfl⟩ := (hkeysmem k).1 hk
    exact ⟨u, rfl, husers u hk1⟩
  have hin : room ++ ':' :: user ∈ keys db (room ++ ":*".toList) :=
    (hkeysmem _).2 ⟨hmem, user, rfl⟩
  have hl := userActivity_fold_lookup today options h0 room hcolon _ hnd hus user
    (husers user hmem) hproto hin ([], db)
  have hobj := mem_of_lookup_eq_some _ _ _ hl
  simp only [getUserActivity]
  exact (arraySort_perm _ _).mem_iff.2 ((entries_perm _).mem_iff.2 hobj)

/-- Witness of `user_activity_reports`: bob in the sample database, hour 5. -/
theorem user_activity_reports_witness :
    ("bob".toList, activityCount ⟨15, 5⟩ ⟨false, some 5⟩
        (hkeys activityStore ("lobby".toList ++ ':' :: "bob".toList))) ∈
      (getUserActivity ⟨15, 5⟩ activityStore "lobby".toList ⟨false, some 5⟩).1 :=
  user_activity_reports ⟨15, 5⟩ activityStore (by decide) "lobby".toList (by decide) (by decide)
    (by
      intro u hu
      have h : u = "alice".toList ∨ u = "bob".toList ∨ u = "carol".toList := by
        simpa [activityStore] using hu
      rcases h with rfl | rfl | rfl <;> decide)
    ⟨false, some 5⟩ (by decide) "bob".toList (by decide) (by decide)

/-! ## The hour filter of `getUserActivity` -/

/-- C10, at the hour 0: with `options.time = 0` the guard `if (options.time)` of
line 138 is false, so the hour filter is skipped and every user is reported with
all of their non-stale time-keys (bob 5, alice 3, carol 1), although only one
time-key of the sample database, one of bob, has the hour field `00`; with
`options.time = 5` the filter is applied (bob 2, alice 0, carol 0). -/
theorem user_activity_hour_zero :
    (getUserActivity ⟨15, 5⟩ activityStore "lobby".toList ⟨false, some 0⟩).1 =
      [("bob".toList, 5), ("alice".toList, 3), ("carol".toList, 1)] ∧
    (getUserActivity ⟨15, 5⟩ activityStore "lobby".toList ⟨true, some 0⟩).1 =
      [("bob".toList, 5), ("alice".toList, 3), ("carol".toList, 1)] ∧
    (activityStore.map (fun e => (e.1, (e.2.filter (fun p =>
        !isStale ⟨15, 5⟩ p.1 &&
          decide ((splitColon p.1)[2]? = some (leftpad (some 0))))).length))) =
      [("lobby:alice".toList, 0), ("lobby:bob".toList, 1), ("lobby:carol".toList, 0)] ∧
    (getUserActivity ⟨15, 5⟩ activityStore "lobby".toList ⟨false, some 5⟩).1 =
      [("bob".toList, 2), ("alice".toList, 0), ("carol".toList, 0)] := by
  decide

/-! ## The sync barrier -/

/-- C15, on an idle logger: `waitForSync` calls `resolve` at once exactly when no
flush is in progress, but it appends `resolve` to `queuedOperations` in every
case (line 55 is not guarded), so a call made while idle adds a waiter: on the
constructor's state the list becomes `[7]`. -/
theorem waitForSync_always_registers (st : State) (resolve : Nat) :
    (waitForSync st resolve).2 = !st.syncing ∧
    (waitForSync st resolve).1.queuedOperations = st.queuedOperations ++ [resolve] ∧
    emptyState.syncing = false ∧
    (waitForSync emptyState 7).2 = true ∧
    (waitForSync emptyState 7).1.queuedOperations = [7] :=
  ⟨rfl, rfl, rfl, rfl, rfl⟩

theorem logCall_queuedOperations (env : Env) (st : State) (c : LogCall) :
    (logCall env st c).queuedOperations = st.queuedOperations := by
  unfold logCall log
  split
  · rfl
  · split
    · rfl
    · split <;> rfl

theorem stepOp_queuedOperations (env : Env) (r : Run) (op : Op) :
    (stepOp env r op).st.queuedOperations = r.st.queuedOperations ++ waitsOf [op] := by
  cases op with
  | wait k => rfl
  | flushStart => simp [stepOp, flushStart, waitsOf]
  | flushCommit => simp [stepOp, flushCommit, waitsOf]
  | flushEnd => simp [stepOp, flushEnd, waitsOf]
  | log c => simp [stepOp, logCall_queuedOperations, waitsOf]

theorem waitsOf_cons (op : Op) (ops : List Op) :
    waitsOf (op :: ops) = waitsOf [op] ++ waitsOf ops := by
  cases op <;> simp [waitsOf]

theorem runOps_queuedOperations (env : Env) (ops : List Op) :
    ∀ r : Run, (runOps env r ops).st.queuedOperations = r.st.queuedOperations ++ waitsOf ops := by
  induction ops with
  | nil => intro r; simp [runOps, waitsOf]
  | cons op ops ih =>
    intro r
    have h := ih (stepOp env r op)
    simp only [runOps, List.foldl_cons] at h ⊢
    rw [h, stepOp_queuedOperations, List.append_assoc, ← waitsOf_cons]

theorem waitsOf_length (ops : List Op) : (waitsOf ops).length = ops.countP Op.isWait := by
  induction ops with
  | nil => rfl
  | cons op ops ih =>
    rw [waitsOf_cons, List.length_append, ih]
    cases op <;> simp [waitsOf, Op.isWait, Nat.add_comm]

/-- C19: from a state with no waiter (the constructor's), after any sequence of
`waitForSync` calls, stages of flush cycles and `log` calls, `queuedOperations`
holds the continuations of all the `waitForSync` calls made so far, in order:
its length is the number of those calls and never decreases; a flush cycle that
ends then calls every one of them and leaves the list as it is. -/
theorem waiters_never_released (env : Env) (st0 : State) (h0 : st0.queuedOperations = [])
    (captured : List (Str × List Str)) (called : List (List Nat)) (ops : List Op) :
    (runOps env ⟨st0, captured, called⟩ ops).st.queuedOperations = waitsOf ops ∧
    (runOps env ⟨st0, captured, called⟩ ops).st.queuedOperations.length =
      ops.countP Op.isWait ∧
    (∀ op : Op, (runOps env ⟨st0, captured, called⟩ ops).st.queuedOperations.length ≤
      (runOps env ⟨st0, captured, called⟩ (ops ++ [op])).st.queuedOperations.length) ∧
    (flushEnd (runOps env ⟨st0, captured, called⟩ ops).st).2 = waitsOf ops ∧
    (flushEnd (runOps env ⟨st0, captured, called⟩ ops).st).1.queuedOperations = waitsOf ops := by
  have h : ∀ l : List Op,
      (runOps env ⟨st0, captured, called⟩ l).st.queuedOperations = waitsOf l := by
    intro l
    rw [runOps_queuedOperations, h0, List.nil_append]
  refine ⟨h ops, by rw [h ops, waitsOf_length], ?_, h ops, h ops⟩
  intro op
  rw [h ops, h (ops ++ [op])]
  simp [waitsOf, List.filterMap_append]

/-- Witness of `waiters_never_released`: two waiters, the second registered
during the first of two flush cycles; both cycles call both. -/
theorem waiters_never_released_witness :
    (runOps sampleEnv ⟨emptyState, [], []⟩
        [Op.wait 1, Op.flushStart, Op.wait 2, Op.flushCommit, Op.flushEnd,
         Op.flushStart, Op.flushCommit, Op.flushEnd]).st.queuedOperations =
      waitsOf [Op.wait 1, Op.flushStart, Op.wait 2, Op.flushCommit, Op.flushEnd,
         Op.flushStart, Op.flushCommit, Op.flushEnd] ∧
    (runOps sampleEnv ⟨emptyState, [], []⟩
        [Op.wait 1, Op.flushStart, Op.wait 2, Op.flushCommit, Op.flushEnd,
         Op.flushStart, Op.flushCommit, Op.flushEnd]).called = [[1, 2], [1, 2]] :=
  ⟨(waiters_never_released sampleEnv emptyState rfl [] []
      [Op.wait 1, Op.flushStart, Op.wait 2, Op.flushCommit, Op.flushEnd,
       Op.flushStart, Op.flushCommit, Op.flushEnd]).1, by decide⟩

/-! ## The time-key -/

theorem leftpad_two_chars : ∀ v, v < 100 → (leftpad (some v)).length = 2 := by
  decide

theorem timeKey_split (d m0 h mi s : Nat) :
    splitColon (timeKey ⟨some d, some m0, some h, some mi, some s⟩) =
      [leftpad (some d), leftpad (some (m0 + 1)), leftpad (some h), leftpad (some mi),
        leftpad (some s)] := by
  simp only [timeKey, succNum]
  rw [splitColon_append _ _ (colon_not_mem_leftpad d),
    splitColon_append _ _ (colon_not_mem_leftpad (m0 + 1)),
    splitColon_append _ _ (colon_not_mem_leftpad h),
    splitColon_append _ _ (colon_not_mem_leftpad mi),
    splitColon_of_no_colon _ (colon_not_mem_leftpad s)]

/-- C16: for a date with UTC day in 1..31, UTC month in 1..12 (`getUTCMonth()`
below 12), UTC hour in 0..23, minute and second in 0..59, the time-key built by
`log` splits on `:` into five fields, day, month, hour, minute, second, each of
two decimal digits, 14 characters in all, and parsing the first three fields
gives back the day, the month and the UTC hour. -/
theorem timeKey_format (d m0 h mi s : Nat) (hd : 1 ≤ d ∧ d ≤ 31) (hm : m0 < 12)
    (hh : h ≤ 23) (hmi : mi ≤ 59) (hs : s ≤ 59) :
    splitColon (timeKey ⟨some d, some m0, some h, some mi, some s⟩) =
      [leftpad (some d), leftpad (some (m0 + 1)), leftpad (some h), leftpad (some mi),
        leftpad (some s)] ∧
    (∀ f ∈ splitColon (timeKey ⟨some d, some m0, some h, some mi, some s⟩),
      f.length = 2 ∧ ∀ c ∈ f, isDigitChar c) ∧
    (timeKey ⟨some d, some m0, some h, some mi, some s⟩).length = 14 ∧
    parseIntOpt (splitColon (timeKey ⟨some d, some m0, some h, some mi, some s⟩))[0]? =
      some (d : Int) ∧
    parseIntOpt (splitColon (timeKey ⟨some d, some m0, some h, some mi, some s⟩))[1]? =
      some ((m0 : Int) + 1) ∧
    parseIntOpt (splitColon (timeKey ⟨some d, some m0, some h, some mi, some s⟩))[2]? =
      some (h : Int) := by
  have l1 := leftpad_two_chars d (by omega)
  have l2 := leftpad_two_chars (m0 + 1) (by omega)
  have l3 := leftpad_two_chars h (by omega)
  have l4 := leftpad_two_chars mi (by omega)
  have l5 := leftpad_two_chars s (by omega)
  rw [timeKey_split]
  refine ⟨rfl, ?_, ?_, ?_, ?_, ?_⟩
  · intro f hf
    simp only [List.mem_cons, List.mem_singleton, List.not_mem_nil, or_false] at hf
    rcases hf with rfl | rfl | rfl | rfl | rfl
    · exact ⟨l1, leftpad_isDigit _⟩
    · exact ⟨l2, leftpad_isDigit _⟩
    · exact ⟨l3, leftpad_isDigit _⟩
    · exact ⟨l4, leftpad_isDigit _⟩
    · exact ⟨l5, leftpad_isDigit _⟩
  · simp only [timeKey, succNum, List.length_append, List.length_cons, l1, l2, l3, l4, l5]
  · simp [parseIntOpt, parseInt_leftpad]
  · simp [parseIntOpt, parseInt_leftpad]
  · simp [parseIntOpt, parseInt_leftpad]

/-- Witness of `timeKey_format`: 15 June, 11:13:20. -/
theorem timeKey_format_witness :
    splitColon (timeKey ⟨some 15, some 5, some 11, some 13, some 20⟩) =
      [leftpad (some 15), leftpad (some (5 + 1)), leftpad (some 11), leftpad (some 13),
        leftpad (some 20)] ∧
    timeKey ⟨some 15, some 5, some 11, some 13, some 20⟩ = "15:06:11:13:20".toList :=
  ⟨(timeKey_format 15 5 11 13 20 (by decide) (by decide) (by decide) (by decide)
      (by decide)).1, by decide⟩

/-! ## Keys with a given start -/

theorem tokenize_start_pattern (room : Str) (hroom : ∀ c ∈ room, isGlobMeta c = false) :
    tokenize (room ++ "*".toList) = room.map GlobTok.lit ++ [GlobTok.star] := by
  have h1 : ("*".toList).length = 1 := rfl
  unfold tokenize
  rw [tokenizeAux_plain room hroom _ _ (by simp only [List.length_append, h1]; omega)]
  have hlen : (room ++ "*".toList).length + 1 - room.length = 2 := by
    simp only [List.length_append, h1]
    omega
  rw [hlen]
  rfl

/-- A key matches the pattern `room*`, for a room without glob characters,
exactly when it starts with the room. -/
theorem globMatch_start (room : Str) (hroom : ∀ c ∈ room, isGlobMeta c = false) (key : Str) :
    globMatch (room ++ "*".toList) key = true ↔ room <+: key := by
  unfold globMatch
  rw [tokenize_start_pattern room hroom, matchToks_lits]
  constructor
  · rintro ⟨rest, rfl, _⟩
    exact ⟨rest, rfl⟩
  · rintro ⟨rest, rfl⟩
    exact ⟨rest, rfl, matchToks_star rest⟩

theorem filter_length_le_of_imp {α : Type} (p q : α → Bool) (hpq : ∀ x, p x = true → q x = true)
    (l : List α) : (l.filter p).length ≤ (l.filter q).length := by
  induction l with
  | nil => simp
  | cons a l ih =>
    by_cases hp : p a = true
    · simp only [List.filter_cons, hp, hpq a hp, if_true, List.length_cons]
      omega
    · by_cases hq : q a = true
      · simp only [List.filter_cons, hp, hq, if_true, List.length_cons]
        simp only [Bool.false_eq_true, if_false] 
        omega
      · simp only [List.filter_cons, hp, hq]
        simpa using ih

/-- C14: for a room without glob characters, `getUniqueUsers(room)` is the number
of keys of the database that start with `room`; that is at least the number of
keys that start with `room:`, and more for the database with the keys
`lobby:alice` and `lobby2:bob` and the room `lobby` (2 against 1). -/
theorem unique_users_counts_starts (db : LogStore) (room : Str)
    (hroom : ∀ c ∈ room, isGlobMeta c = false) :
    getUniqueUsers db room =
      ((db.map Prod.fst).filter (fun k => decide (room <+: k))).length ∧
    ((db.map Prod.fst).filter (fun k => decide ((room ++ [':']) <+: k))).length ≤
      getUniqueUsers db room ∧
    getUniqueUsers twoRoomStore "lobby".toList = 2 ∧
    ((twoRoomStore.map Prod.fst).filter
      (fun k => decide (("lobby".toList ++ [':']) <+: k))).length = 1 := by
  have hcount : getUniqueUsers db room =
      ((db.map Prod.fst).filter (fun k => decide (room <+: k))).length := by
    unfold getUniqueUsers keys
    congr 1
    apply List.filter_congr
    intro k _
    rw [Bool.eq_iff_iff, globMatch_start room hroom k]
    simp
  refine ⟨hcount, ?_, by decide, by decide⟩
  rw [hcount]
  apply filter_length_le_of_imp
  intro k hk
  simp only [decide_eq_true_eq] at hk ⊢
  obtain ⟨rest, rfl⟩ := hk
  exact ⟨':' :: rest, by simp⟩

/-- Witness of `unique_users_counts_starts`: the room `lobby` of the two-room
database. -/
theorem unique_users_counts_starts_witness :
    getUniqueUsers twoRoomStore "lobby".toList =
      ((twoRoomStore.map Prod.fst).filter (fun k => decide ("lobby".toList <+: k))).length :=
  (unique_users_counts_starts twoRoomStore "lobby".toList (by decide)).1

/-! ## Counting by label -/

theorem lineCountLoop_output (today : Today) (L : List Str) :
    ∀ (output : JSObj (Option Nat)) (toPrune : List Str),
      (lineCountLoop today L (output, toPrune)).1 =
        ((L.filter (fun k => !isStale today k)).map dateLabel).foldl increment output := by
  induction L with
  | nil => intro o tp; rfl
  | cons a L ih =>
    intro o tp
    cases hst : isStale today a
    · simp only [lineCountLoop, hst, Bool.false_eq_true, if_false, ih, List.filter_cons,
        Bool.not_false, if_true, List.map_cons, List.foldl_cons]
      rfl
    · simp only [lineCountLoop, hst, if_true, ih, List.filter_cons, Bool.not_true,
        Bool.false_eq_true, if_false]

theorem roomActivityLoop_output (today : Today) (L : List Str) :
    ∀ (output : JSObj (Option Nat)) (toPrune : List Str),
      (roomActivityLoop today L (output, toPrune)).1 =
        ((L.filter (fun k => !isStale today k)).map hourLabel).foldl increment output := by
  induction L with
  | nil => intro o tp; rfl
  | cons a L ih =>
    intro o tp
    cases hst : isStale today a
    · simp only [roomActivityLoop, hst, Bool.false_eq_true, if_false, ih, List.filter_cons,
        Bool.not_false, if_true, List.map_cons, List.foldl_cons]
      rfl
    · simp only [roomActivityLoop, hst, if_true, ih, List.filter_cons, Bool.not_true,
        Bool.false_eq_true, if_false]

theorem filter_label_append_singleton (label : Str → Str) (done : List Str) (x l : Str) :
    ((done ++ [x]).filter (fun k => label k = l)).length =
      (done.filter (fun k => label k = l)).length + (if label x = l then 1 else 0) := by
  by_cases h : label x = l
  · simp [List.filter_append, List.filter_cons, h]
  · simp [List.filter_append, List.filter_cons, h]

theorem filter_label_of_not_mem (label : Str → Str) (done : List Str) (l : Str)
    (h : l ∉ done.map label) : done.filter (fun k => label k = l) = [] := by
  rw [List.filter_eq_nil_iff]
  intro k hk
  simp only [decide_eq_true_eq]
  intro hkl
  exact h (hkl ▸ List.mem_map_of_mem label hk)

/-- Counting with `increment` builds the mapping of counts by label, when no
label is the name of an inherited property. -/
theorem foldl_increment_histogram (label : Str → Str) (timeKeys : List Str)
    (hproto : ∀ k ∈ timeKeys, label k ∉ protoNames) :
    (timeKeys.map label).foldl increment [] = histogramBy label timeKeys := by
  induction timeKeys using List.reverseRecOn with
  | nil => simp [histogramBy, firstOccurrences]
  | append_singleton done x ih =>
    have hx : label x ∉ protoNames := hproto x (by simp)
    have hxk : label x ≠ protoKey := by
      intro h
      apply hx
      rw [h]
      decide
    have hcontains : protoNames.contains (label x) = false := by
      simpa using hx
    rw [List.map_append, List.foldl_append, ih (fun k hk => hproto k (List.mem_append_left _ hk))]
    simp only [List.map_cons, List.map_nil, List.foldl_cons, List.foldl_nil, histogramBy]
    have hmap : List.map label (done ++ [x]) = List.map label done ++ [label x] := by simp
    rw [hmap, firstOccurrences_append_singleton]
    unfold increment hasProp setProp
    rw [lookup_map_self, if_neg hxk, if_neg hxk, hcontains, Bool.or_false]
    by_cases hk : label x ∈ firstOccurrences (done.map label)
    · rw [if_pos hk, if_pos hk]
      simp only [Option.isSome_some, if_true]
      rw [put_map_of_mem _ (firstOccurrences_nodup _) _ _ _ hk]
      apply List.map_congr_left
      intro l _
      rw [filter_label_append_singleton]
      by_cases hl : l = label x
      · subst hl; simp
      · have hl' : ¬ label x = l := fun h => hl h.symm
        simp [hl, hl']
    · rw [if_neg hk, if_neg hk]
      simp only [Option.isSome_none, Bool.false_eq_true, if_false]
      rw [put_map_of_not_mem _ _ _ _ hk]
      apply List.map_congr_left
      intro l _
      rw [filter_label_append_singleton]
      by_cases hl : l = label x
      · subst hl
        have := filter_label_of_not_mem label done (label x)
          (fun h => hk ((mem_firstOccurrences _ _).2 h))
        simp [this]
      · have hl' : ¬ label x = l := fun h => hl h.symm
        simp [hl, hl']

theorem sum_filter_label_lengths (label : Str → Str) (ks : List Str) (hnd : ks.Nodup)
    (l : List Str) (hall : ∀ c ∈ l, label c ∈ ks) :
    (ks.map (fun k => (l.filter (fun c => label c = k)).length)).sum = l.length := by
  induction l with
  | nil => simp
  | cons c l ih =>
    have h1 : ∀ k, ((c :: l).filter (fun c => label c = k)).length =
        (if label c = k then 1 else 0) + (l.filter (fun c => label c = k)).length := by
      intro k
      by_cases h : label c = k
      · simp [List.filter_cons, h, Nat.add_comm]
      · simp [List.filter_cons, h]
    simp only [h1, List.sum_map_add, List.length_cons]
    rw [sum_indicator_of_mem ks hnd _ (hall c (List.mem_cons_self c l)),
      ih (fun x hx => hall x (List.mem_cons_of_mem c hx))]
    omega

theorem histogramBy_total (label : Str → Str) (timeKeys : List Str) :
    ((histogramBy label timeKeys).map (fun p => p.2.getD 0)).sum = timeKeys.length := by
  unfold histogramBy
  rw [List.map_map]
  have hfun : ((fun p : Str × Option Nat => p.2.getD 0) ∘
      fun l => (l, some (timeKeys.filter (fun k => label k = l)).length)) =
      fun l => (timeKeys.filter (fun k => label k = l)).length := rfl
  rw [hfun]
  exact sum_filter_label_lengths label _ (firstOccurrences_nodup _) timeKeys
    (fun c hc => (mem_firstOccurrences _ _).2 (List.mem_map_of_mem label hc))

theorem histogramBy_keys (label : Str → Str) (timeKeys : List Str) :
    (histogramBy label timeKeys).map Prod.fst = firstOccurrences (timeKeys.map label) := by
  unfold histogramBy
  rw [List.map_map]
  exact (List.map_congr_left (fun _ _ => rfl)).trans (List.map_id _)

theorem dateLabel_not_proto (key : Str) : dateLabel key ∉ protoNames :=
  (label_not_proto _ _).1

theorem userActivity_fold_snd (today : Today) (options : ActivityOptions) (us : List Str) :
    ∀ acc : JSObj Nat × LogStore,
      (us.foldl (userActivityStep today options) acc).2 =
        us.foldl (fun db k => pruneFields db k ((hkeys db k).filter (isStale today))) acc.2 := by
  induction us with
  | nil => intro acc; rfl
  | cons k us ih =>
    intro acc
    rw [List.foldl_cons, List.foldl_cons, ih]
    rfl

theorem roomActivityStep_snd (today : Today) (acc : JSObj (Option Nat) × LogStore) (k : Str) :
    (roomActivityStep today acc k).2 =
      pruneFields acc.2 k ((hkeys acc.2 k).filter (isStale today)) := by
  have h := roomActivityLoop_toPrune today (hkeys acc.2 k) acc.1 []
  simp only [roomActivityStep, h, List.nil_append]

theorem roomActivity_fold_snd (today : Today) (us : List Str) :
    ∀ acc : JSObj (Option Nat) × LogStore,
      (us.foldl (roomActivityStep today) acc).2 =
        us.foldl (fun db k => pruneFields db k ((hkeys db k).filter (isStale today))) acc.2 := by
  induction us with
  | nil => intro acc; rfl
  | cons k us ih =>
    intro acc
    rw [List.foldl_cons, List.foldl_cons, ih, roomActivityStep_snd]

theorem keys_nodup (db : LogStore) (hwf : StoreWF db) (pattern : Str) :
    (keys db pattern).Nodup := List.Nodup.filter _ hwf

theorem scan_fold_eq (today : Today) (db : LogStore) (hwf : StoreWF db) (pattern : Str) :
    (keys db pattern).foldl
        (fun db k => pruneFields db k ((hkeys db k).filter (isStale today))) db =
      db.filterMap (scanEntry today (globMatch pattern)) := by
  rw [sweep_fold_eq today _ (keys_nodup db hwf pattern) db hwf]
  apply List.filterMap_congr
  intro e he
  have hmem : e.1 ∈ keys db pattern ↔ globMatch pattern e.1 = true := by
    simp only [keys, List.mem_filter, List.mem_map]
    constructor
    · rintro ⟨_, h⟩; exact h
    · intro h; exact ⟨⟨e, he, rfl⟩, h⟩
  unfold scanEntry
  by_cases h : globMatch pattern e.1 = true
  · rw [if_pos (hmem.2 h), if_pos h]
  · rw [if_neg (fun h' => h (hmem.1 h')), if_neg h]

theorem getLineCount_store (today : Today) (db : LogStore) (hwf : StoreWF db)
    (room userid : Str) :
    (getLineCount today db room userid).2 =
      db.filterMap (scanEntry today (fun k => decide (k = room ++ ':' :: userid))) := by
  have h := lineCountLoop_toPrune today (hkeys db (room ++ ':' :: userid)) [] []
  simp only [getLineCount, h, List.nil_append]
  rw [sweep_step_eq today db hwf]
  apply List.filterMap_congr
  intro e _
  simp [scanEntry]

theorem getUserActivity_store (today : Today) (db : LogStore) (hwf : StoreWF db)
    (room : Str) (options : ActivityOptions) :
    (getUserActivity today db room options).2 =
      db.filterMap (scanEntry today (globMatch (room ++ ":*".toList))) := by
  simp only [getUserActivity]
  rw [userActivity_fold_snd, scan_fold_eq today db hwf]

theorem getRoomActivity_store (today : Today) (db : LogStore) (hwf : StoreWF db)
    (room : Str) :
    (getRoomActivity today db room).2 =
      db.filterMap (scanEntry today (globMatch (room ++ ":*".toList))) := by
  simp only [getRoomActivity]
  rw [roomActivity_fold_snd, scan_fold_eq today db hwf]

theorem scanEntry_key (today : Today) (sel : Str → Bool) (e e' : Str × Hash)
    (h : scanEntry today sel e = some e') : e'.1 = e.1 := by
  unfold scanEntry at h
  split at h
  · exact sweepEntry_key today e e' h
  · simp at h; rw [← h]

theorem sweepEntry_hash (today : Today) (e : Str × Hash) :
    (∀ e', sweepEntry today e = some e' → e'.2 = e.2.filter (fun p => !isStale today p.1)) ∧
    (sweepEntry today e = none → e.2.filter (fun p => !isStale today p.1) = []) := by
  by_cases hall : e.2.all (fun p => !isStale today p.1) = true
  · have hs : sweepEntry today e = some e := by simp [sweepEntry, hall]
    rw [hs]
    refine ⟨?_, by simp⟩
    intro e' he'
    simp only [Option.some.injEq] at he'
    subst he'
    symm
    rw [List.filter_eq_self]
    intro p hp
    exact List.all_eq_true.1 hall p hp
  · by_cases hnil : e.2.filter (fun p => !isStale today p.1) = []
    · have hs : sweepEntry today e = none := by simp [sweepEntry, hall, hnil]
      rw [hs]
      exact ⟨by simp, fun _ => hnil⟩
    · have hs : sweepEntry today e =
          some (e.1, e.2.filter (fun p => !isStale today p.1)) := by
        simp [sweepEntry, hall, hnil]
      rw [hs]
      refine ⟨?_, by simp⟩
      intro e' he'
      simp only [Option.some.injEq] at he'
      subst he'
      rfl

theorem storeWF_scan (today : Today) (sel : Str → Bool) (db : LogStore) (hwf : StoreWF db) :
    StoreWF (db.filterMap (scanEntry today sel)) :=
  storeWF_filterMap db hwf _ (scanEntry_key today sel)

theorem hashAt_of_mem (db : LogStore) (hwf : StoreWF db) (e : Str × Hash) (he : e ∈ db) :
    hashAt db e.1 = e.2 := by
  simp [hashAt, lookup_of_mem db hwf e he]

theorem hashAt_of_not_mem (db : LogStore) (k : Str) (hk : k ∉ db.map Prod.fst) :
    hashAt db k = [] := by
  simp [hashAt, lookup_eq_none_of_not_mem db k hk]

/-- After a scan, the hash of a key that was read has lost its stale fields and
nothing else; the hash of any other key is as before. -/
theorem hashAt_scan (today : Today) (sel : Str → Bool) (db : LogStore) (hwf : StoreWF db)
    (k : Str) :
    hashAt (db.filterMap (scanEntry today sel)) k =
      if sel k then (hashAt db k).filter (fun p => !isStale today p.1) else hashAt db k := by
  have hwf' := storeWF_scan today sel db hwf
  by_cases hk : k ∈ db.map Prod.fst
  · obtain ⟨e, he, rfl⟩ := List.mem_map.1 hk
    rw [hashAt_of_mem db hwf e he]
    cases hs : scanEntry today sel e with
    | none =>
      have hsel : sel e.1 = true := by
        unfold scanEntry at hs
        by_cases h : sel e.1 = true
        · exact h
        · rw [if_neg h] at hs; simp at hs
      have hsw : sweepEntry today e = none := by
        unfold scanEntry at hs
        rw [if_pos hsel] at hs
        exact hs
      have hnot : e.1 ∉ (db.filterMap (scanEntry today sel)).map Prod.fst := by
        intro hmem
        obtain ⟨e', he', hk'⟩ := List.mem_map.1 hmem
        obtain ⟨e0, he0, hs0⟩ := List.mem_filterMap.1 he'
        have h1 : e0.1 = e.1 := (scanEntry_key today sel e0 e' hs0).symm.trans hk'
        have h2 := lookup_of_mem db hwf e0 he0
        have h3 := lookup_of_mem db hwf e he
        rw [h1, h3] at h2
        have : e0 = e := Prod.ext h1 (Option.some.inj h2).symm
        rw [this, hs] at hs0
        simp at hs0
      rw [hashAt_of_not_mem _ _ hnot, if_pos hsel, (sweepEntry_hash today e).2 hsw]
    | some e' =>
      have he' : e' ∈ db.filterMap (scanEntry today sel) := List.mem_filterMap.2 ⟨e, he, hs⟩
      have hk' := scanEntry_key today sel e e' hs
      rw [← hk', hashAt_of_mem _ hwf' e' he', hk']
      unfold scanEntry at hs
      by_cases hsel : sel e.1 = true
      · rw [if_pos hsel] at hs
        rw [if_pos hsel]
        exact (sweepEntry_hash today e).1 e' hs
      · rw [if_neg hsel] at hs
        rw [if_neg hsel]
        simp only [Option.some.injEq] at hs
        rw [← hs]
  · have hnot : k ∉ (db.filterMap (scanEntry today sel)).map Prod.fst := fun h =>
      hk ((filterMap_keys_sublist _ (scanEntry_key today sel) db).subset h)
    rw [hashAt_of_not_mem _ _ hnot, hashAt_of_not_mem _ _ hk]
    simp

/-- C17: on a database that is a map, each of `getLineCount`, `getUserActivity`
and `getRoomActivity` leaves, under every composite key it reads (`room:userid`,
or the keys matching `room:*`), the fields the staleness test of `pruneAll` does
not mark stale, with their values and in their order, and deletes the others;
the hash of every other key is unchanged. -/
theorem inline_prune_exactly_stale (today : Today) (db : LogStore) (hwf : StoreWF db)
    (room userid : Str) (options : ActivityOptions) (k : Str) :
    hashAt (getLineCount today db room userid).2 k =
      (if k = room ++ ':' :: userid then
        (hashAt db k).filter (fun p => !isStale today p.1) else hashAt db k) ∧
    hashAt (getUserActivity today db room options).2 k =
      (if globMatch (room ++ ":*".toList) k then
        (hashAt db k).filter (fun p => !isStale today p.1) else hashAt db k) ∧
    hashAt (getRoomActivity today db room).2 k =
      (if globMatch (room ++ ":*".toList) k then
        (hashAt db k).filter (fun p => !isStale today p.1) else hashAt db k) ∧
    hashAt (pruneAll today db) k = (hashAt db k).filter (fun p => !isStale today p.1) := by
  refine ⟨?_, ?_, ?_, ?_⟩
  · rw [getLineCount_store today db hwf, hashAt_scan today _ db hwf]
    simp
  · rw [getUserActivity_store today db hwf, hashAt_scan today _ db hwf]
  · rw [getRoomActivity_store today db hwf, hashAt_scan today _ db hwf]
  · have h := hashAt_scan today (fun _ => true) db hwf k
    have hs : db.filterMap (scanEntry today (fun _ => true)) = db.filterMap (sweepEntry today) := by
      apply List.filterMap_congr
      intro e _
      simp [scanEntry]
    rw [pruneAll_eq today db hwf, ← hs, h]
    simp

/-- Witness of `inline_prune_exactly_stale`: the sample database on 15 June. -/
theorem inline_prune_exactly_stale_witness :
    hashAt (getRoomActivity ⟨15, 5⟩ sampleStore "lobby".toList).2 "lobby:alice".toList =
      (if globMatch ("lobby".toList ++ ":*".toList) "lobby:alice".toList then
        (hashAt sampleStore "lobby:alice".toList).filter
          (fun p => !isStale ⟨15, 5⟩ p.1) else hashAt sampleStore "lobby:alice".toList) :=
  (inline_prune_exactly_stale ⟨15, 5⟩ sampleStore (by decide) "lobby".toList "alice".toList
    ⟨false, none⟩ "lobby:alice".toList).2.2.1

/-! ## The scans as folds over the database -/

theorem foldl_congr_mem {σ α : Type} (f g : σ → α → σ) (l : List α)
    (h : ∀ s, ∀ a ∈ l, f s a = g s a) : ∀ s : σ, l.foldl f s = l.foldl g s := by
  induction l with
  | nil => intro s; rfl
  | cons a l ih =>
    intro s
    rw [List.foldl_cons, List.foldl_cons, h s a (List.mem_cons_self a l),
      ih (fun s x hx => h s x (List.mem_cons_of_mem a hx))]

/-- A scan that prunes the key it has just read computes its result from the
time-keys the database had at the start. -/
theorem scan_fold_fst {σ : Type} (step : σ × LogStore → Str → σ × LogStore)
    (upd : σ → Str → List Str → σ)
    (h1 : ∀ acc k, (step acc k).1 = upd acc.1 k (hkeys acc.2 k))
    (h2 : ∀ acc k, ∃ tp, (step acc k).2 = pruneFields acc.2 k tp)
    (us : List Str) (hnd : us.Nodup) :
    ∀ acc : σ × LogStore,
      (us.foldl step acc).1 = us.foldl (fun o k => upd o k (hkeys acc.2 k)) acc.1 := by
  induction us with
  | nil => intro acc; rfl
  | cons k us ih =>
    intro acc
    rw [List.nodup_cons] at hnd
    rw [List.foldl_cons, List.foldl_cons, ih hnd.2, h1]
    apply foldl_congr_mem
    intro o k' hk'
    obtain ⟨tp, htp⟩ := h2 acc k
    have hne : k' ≠ k := fun h => hnd.1 (h ▸ hk')
    rw [htp, hkeys_pruneFields_of_ne _ _ _ _ hne]

theorem userActivityStep_fst (today : Today) (options : ActivityOptions)
    (acc : JSObj Nat × LogStore) (k : Str) :
    (userActivityStep today options acc k).1 =
      setProp acc.1 (tpl (splitColon k)[1]?) (stepCount today options (hkeys acc.2 k)) := rfl

theorem roomActivityStep_fst (today : Today) (acc : JSObj (Option Nat) × LogStore) (k : Str) :
    (roomActivityStep today acc k).1 =
      (((hkeys acc.2 k).filter (fun f => !isStale today f)).map hourLabel).foldl
        increment acc.1 := by
  have h := roomActivityLoop_output today (hkeys acc.2 k) acc.1 []
  simp only [roomActivityStep, h]

/-- The object that the scan of `getUserActivity` builds. -/
theorem userActivity_object (today : Today) (options : ActivityOptions) (db : LogStore)
    (hwf : StoreWF db) (pattern : Str) :
    ((keys db pattern).foldl (userActivityStep today options) ([], db)).1 =
      (keys db pattern).foldl
        (fun o k => setProp o (tpl (splitColon k)[1]?) (stepCount today options (hkeys db k)))
        [] :=
  scan_fold_fst (userActivityStep today options)
    (fun o k L => setProp o (tpl (splitColon k)[1]?) (stepCount today options L))
    (userActivityStep_fst today options) (fun _ _ => ⟨_, rfl⟩) _ (keys_nodup db hwf pattern)
    ([], db)

/-- The object that the scan of `getRoomActivity` builds. -/
theorem roomActivity_object (today : Today) (db : LogStore) (hwf : StoreWF db)
    (pattern : Str) :
    ((keys db pattern).foldl (roomActivityStep today) ([], db)).1 =
      (keys db pattern).foldl
        (fun o k => (((hkeys db k).filter (fun f => !isStale today f)).map hourLabel).foldl
          increment o) [] :=
  scan_fold_fst (roomActivityStep today)
    (fun o _ L => ((L.filter (fun f => !isStale today f)).map hourLabel).foldl increment o)
    (roomActivityStep_fst today) (fun acc k => ⟨_, roomActivityStep_snd today acc k⟩) _
    (keys_nodup db hwf pattern) ([], db)

theorem foldl_foldl_flatMap {σ α β : Type} (f : σ → β → σ) (G : α → List β) (l : List α) :
    ∀ o : σ, l.foldl (fun o a => (G a).foldl f o) o = (l.flatMap G).foldl f o := by
  induction l with
  | nil => intro o; rfl
  | cons a l ih =>
    intro o
    rw [List.foldl_cons, List.flatMap_cons, List.foldl_append, ih]

/-- The object of `getRoomActivity` counts the hour labels of the non-stale
time-keys of the room. -/
theorem roomActivity_object_labels (today : Today) (db : LogStore) (hwf : StoreWF db)
    (room : Str) :
    ((keys db (room ++ ":*".toList)).foldl (roomActivityStep today) ([], db)).1 =
      ((roomTimeKeys today db room).map hourLabel).foldl increment [] := by
  rw [roomActivity_object today db hwf, foldl_foldl_flatMap, roomTimeKeys, List.map_flatMap]

/-! ## The hour histogram -/

theorem colon_not_mem_leftpad_any (x : Option Nat) : ':' ∉ leftpad x := by
  cases x with
  | none => decide
  | some v => exact colon_not_mem_leftpad v

theorem protoNames_not_digits : ∀ n ∈ protoNames, ¬ ∀ c ∈ n, 48 ≤ c.toNat ∧ c.toNat ≤ 57 := by
  decide

theorem leftpad_not_proto (x : Option Nat) : leftpad x ∉ protoNames := by
  cases x with
  | none => decide
  | some v =>
    intro h
    exact protoNames_not_digits _ h (leftpad_isDigit v)

/-- The hour label of every time-key that `log` writes is no name of an
inherited property. -/
theorem timeKey_hour_not_proto (date : JSDate) : hourLabel (timeKey date) ∉ protoNames := by
  have h : hourLabel (timeKey date) = leftpad date.utcHours := by
    simp only [hourLabel, timeKey]
    rw [splitColon_append _ _ (colon_not_mem_leftpad_any _),
      splitColon_append _ _ (colon_not_mem_leftpad_any _),
      splitColon_append _ _ (colon_not_mem_leftpad_any _)]
    simp [tpl]
  rw [h]
  exact leftpad_not_proto _

/-- C12 fails as stated: a non-stale time-key whose hour field is `constructor`
finds the inherited property of that name in the empty object, and `++` makes the
count `NaN`, not 1. -/
theorem room_activity_inherited_name_counterexample :
    StoreWF protoHourStore ∧
    roomTimeKeys ⟨15, 5⟩ protoHourStore "lobby".toList = ["15:06:constructor:00:00".toList] ∧
    hourLabel "15:06:constructor:00:00".toList = "constructor".toList ∧
    (getRoomActivity ⟨15, 5⟩ protoHourStore "lobby".toList).1 =
      [("constructor".toList, none)] := by
  decide

/-- C12 (as the code has it): on a database that is a map and in which no
non-stale time-key of the room has the name of an inherited property as its hour
field (no time-key written by `log` has), `getRoomActivity` returns one pair per
distinct hour field among the non-stale time-keys of the keys matching `room:*`,
with the number of those time-keys, over all users, that have that hour field;
the counts total the number of non-stale time-keys of the room. -/
theorem room_activity_histogram (today : Today) (db : LogStore) (hwf : StoreWF db)
    (room : Str)
    (hproto : ∀ k ∈ roomTimeKeys today db room, hourLabel k ∉ protoNames) :
    (getRoomActivity today db room).1.Perm
      (histogramBy hourLabel (roomTimeKeys today db room)) ∧
    ((getRoomActivity today db room).1.map Prod.fst).Nodup ∧
    (∀ l, l ∈ (getRoomActivity today db room).1.map Prod.fst ↔
      ∃ k ∈ roomTimeKeys today db room, hourLabel k = l) ∧
    ((getRoomActivity today db room).1.map (fun p => p.2.getD 0)).sum =
      (roomTimeKeys today db room).length := by
  have hperm : (getRoomActivity today db room).1.Perm
      (histogramBy hourLabel (roomTimeKeys today db room)) := by
    simp only [getRoomActivity]
    rw [roomActivity_object_labels today db hwf, foldl_increment_histogram _ _ hproto]
    exact (arraySort_perm _ _).trans (entries_perm _)
  have hkeys := histogramBy_keys hourLabel (roomTimeKeys today db room)
  refine ⟨hperm, ?_, ?_, ?_⟩
  · rw [(hperm.map Prod.fst).nodup_iff, hkeys]
    exact firstOccurrences_nodup _
  · intro l
    rw [(hperm.map Prod.fst).mem_iff, hkeys, mem_firstOccurrences, List.mem_map]
  · rw [(hperm.map (fun p => p.2.getD 0)).sum_eq]
    exact histogramBy_total _ _

/-- Witness of `room_activity_histogram`: the database with the hours 09, 02 and
13 on 15 June. -/
theorem room_activity_histogram_witness :
    (getRoomActivity ⟨15, 5⟩ hourStore "lobby".toList).1.Perm
      (histogramBy hourLabel (roomTimeKeys ⟨15, 5⟩ hourStore "lobby".toList)) ∧
    histogramBy hourLabel (roomTimeKeys ⟨15, 5⟩ hourStore "lobby".toList) =
      [("09".toList, some 2), ("02".toList, some 1), ("13".toList, some 1)] :=
  ⟨(room_activity_histogram ⟨15, 5⟩ hourStore (by decide) "lobby".toList (by decide)).1,
    by decide⟩

/-! ## The order of the hour histogram -/

theorem scanEntry_fixed (today : Today) (sel : Str → Bool) (e e' : Str × Hash)
    (h : scanEntry today sel e = some e') : scanEntry today sel e' = some e' := by
  have hk := scanEntry_key today sel e e' h
  unfold scanEntry at h ⊢
  rw [hk]
  by_cases hsel : sel e.1 = true
  · rw [if_pos hsel] at h ⊢
    exact sweepEntry_fixed today e e' h
  · rw [if_neg hsel]

/-- A second scan of the same keys deletes nothing. -/
theorem scan_idem (today : Today) (sel : Str → Bool) (db : LogStore) :
    (db.filterMap (scanEntry today sel)).filterMap (scanEntry today sel) =
      db.filterMap (scanEntry today sel) := by
  rw [List.filterMap_filterMap]
  apply List.filterMap_congr
  intro e _
  cases hs : scanEntry today sel e with
  | none => rfl
  | some e' => simpa [Option.bind] using scanEntry_fixed today sel e e' hs

theorem fields_filter (today : Today) (h : Hash) :
    (h.filter (fun p => !isStale today p.1)).map Prod.fst =
      (h.map Prod.fst).filter (fun f => !isStale today f) := by
  rw [List.filter_map]
  rfl

theorem keys_fold_entries {σ : Type} (upd : σ → Str → List Str → σ) (db : LogStore)
    (hwf : StoreWF db) (pattern : Str) (o0 : σ) :
    (keys db pattern).foldl (fun o k => upd o k (hkeys db k)) o0 =
      (db.filter (fun e => globMatch pattern e.1)).foldl
        (fun o e => upd o e.1 (e.2.map Prod.fst)) o0 := by
  have hk : keys db pattern = (db.filter (fun e => globMatch pattern e.1)).map Prod.fst := by
    unfold keys
    rw [List.filter_map]
    rfl
  rw [hk, List.foldl_map]
  apply foldl_congr_mem
  intro o e he
  rw [hkeys_of_mem db hwf e (List.mem_filter.1 he).1]

/-- A scan run on the database that a first scan of the same keys has left reads
the same time-keys, as far as the result depends on the non-stale ones only. -/
theorem second_scan_fold {σ : Type} (today : Today) (upd : σ → Str → List Str → σ)
    (m : Str → Bool)
    (hns : ∀ o k L, upd o k (L.filter (fun f => !isStale today f)) = upd o k L)
    (db : LogStore)
    (hdrop : ∀ e ∈ db, m e.1 = true → sweepEntry today e = none →
      ∀ o, upd o e.1 (e.2.map Prod.fst) = o) :
    ∀ o0 : σ,
      ((db.filterMap (scanEntry today m)).filter (fun e => m e.1)).foldl
          (fun o e => upd o e.1 (e.2.map Prod.fst)) o0 =
        (db.filter (fun e => m e.1)).foldl (fun o e => upd o e.1 (e.2.map Prod.fst)) o0 := by
  induction db with
  | nil => intro o0; rfl
  | cons e db ih =>
    intro o0
    have ih' := ih (fun x hx => hdrop x (List.mem_cons_of_mem e hx))
    by_cases hm : m e.1 = true
    · have hsc : scanEntry today m e = sweepEntry today e := by simp [scanEntry, hm]
      cases hs : sweepEntry today e with
      | none =>
        rw [List.filterMap_cons_none (hsc.trans hs), List.filter_cons, if_pos hm,
          List.foldl_cons, hdrop e (List.mem_cons_self e db) hm hs, ih']
      | some e' =>
        have hk := sweepEntry_key today e e' hs
        have hh := (sweepEntry_hash today e).1 e' hs
        have hm' : m e'.1 = true := by rw [hk]; exact hm
        rw [List.filterMap_cons_some (hsc.trans hs), List.filter_cons, if_pos hm',
          List.filter_cons, if_pos hm, List.foldl_cons, List.foldl_cons, ih', hk, hh,
          fields_filter, hns]
    · have hsc : scanEntry today m e = some e := by simp [scanEntry, hm]
      rw [List.filterMap_cons_some hsc, List.filter_cons, if_neg hm, List.filter_cons,
        if_neg hm, ih']

theorem stepCount_filter (today : Today) (options : ActivityOptions) (L : List Str) :
    stepCount today options (L.filter (fun f => !isStale today f)) =
      stepCount today options L := by
  have hst : (fun key => staleTest today (splitColon key)[0]? (splitColon key)[1]?) =
      isStale today := rfl
  have h1 : (L.filter (fun f => !isStale today f)).filter (isStale today) = [] := by
    rw [List.filter_eq_nil_iff]
    intro x hx
    have := (List.mem_filter.1 hx).2
    simpa using this
  simp only [stepCount, hst, filter_not_contains_filter, h1, List.filter_filter, Bool.and_self]
  simp

theorem getLineCount_output (today : Today) (db : LogStore) (room userid : Str) :
    (getLineCount today db room userid).1 =
      histogramBy dateLabel
        ((hkeys db (room ++ ':' :: userid)).filter (fun k => !isStale today k)) := by
  simp only [getLineCount]
  rw [lineCountLoop_output, foldl_increment_histogram _ _ (fun k _ => dateLabel_not_proto k)]

theorem hkeys_eq_hashAt (db : LogStore) (k : Str) : hkeys db k = (hashAt db k).map Prod.fst :=
  rfl

theorem getRoomActivity_twice (today : Today) (db : LogStore) (hwf : StoreWF db) (room : Str) :
    (getRoomActivity today (getRoomActivity today db room).2 room).1 =
      (getRoomActivity today db room).1 := by
  have hwf' := storeWF_scan today (globMatch (room ++ ":*".toList)) db hwf
  rw [getRoomActivity_store today db hwf]
  simp only [getRoomActivity]
  rw [roomActivity_object today _ hwf', roomActivity_object today db hwf,
    keys_fold_entries
      (fun o _ L => ((L.filter (fun f => !isStale today f)).map hourLabel).foldl increment o)
      _ hwf',
    keys_fold_entries
      (fun o _ L => ((L.filter (fun f => !isStale today f)).map hourLabel).foldl increment o)
      _ hwf]
  rw [second_scan_fold today
    (fun o _ L => ((L.filter (fun f => !isStale today f)).map hourLabel).foldl increment o)
    (globMatch (room ++ ":*".toList))]
  · intro o k L
    simp only [List.filter_filter, Bool.and_self]
  · intro e _ _ hs o
    have := (sweepEntry_hash today e).2 hs
    simp only [← fields_filter, this, List.map_nil, List.foldl_nil]

theorem getUserActivity_twice (today : Today) (db : LogStore) (hwf : StoreWF db) (room : Str)
    (options : ActivityOptions)
    (hlive : ∀ e ∈ db, globMatch (room ++ ":*".toList) e.1 = true →
      ∃ p ∈ e.2, isStale today p.1 = false) :
    (getUserActivity today (getUserActivity today db room options).2 room options).1 =
      (getUserActivity today db room options).1 := by
  have hwf' := storeWF_scan today (globMatch (room ++ ":*".toList)) db hwf
  rw [getUserActivity_store today db hwf]
  simp only [getUserActivity]
  rw [userActivity_object today options _ hwf', userActivity_object today options db hwf,
    keys_fold_entries
      (fun o k L => setProp o (tpl (splitColon k)[1]?) (stepCount today options L)) _ hwf',
    keys_fold_entries
      (fun o k L => setProp o (tpl (splitColon k)[1]?) (stepCount today options L)) _ hwf]
  rw [second_scan_fold today
    (fun o k L => setProp o (tpl (splitColon k)[1]?) (stepCount today options L))
    (globMatch (room ++ ":*".toList))]
  · intro o k L
    simp only [stepCount_filter]
  · intro e he hm hs o
    exfalso
    obtain ⟨p, hp, hst⟩ := hlive e he hm
    have hnil := (sweepEntry_hash today e).2 hs
    have : p ∈ e.2.filter (fun p => !isStale today p.1) := by
      simp [List.mem_filter, hp, hst]
    rw [hnil] at this
    simp at this

/-- C18 fails as stated for `getUserActivity`: on 15 June, with a user whose only
time-key is stale, the first call reports the user with the count 0 and deletes
the emptied key; the second call no longer finds the key and reports nobody. -/
theorem user_activity_twice_counterexample :
    StoreWF staleOnlyStore ∧
    (getUserActivity ⟨15, 5⟩ staleOnlyStore "lobby".toList ⟨false, none⟩).1 =
      [("alice".toList, 0)] ∧
    (getUserActivity ⟨15, 5⟩
      (getUserActivity ⟨15, 5⟩ staleOnlyStore "lobby".toList ⟨false, none⟩).2
      "lobby".toList ⟨false, none⟩).1 = [] := by
  decide

/-- C18 (as the code has it): on a database that is a map and for a fixed current
date, a second `getLineCount(room, userid)` returns the same mapping as the first
and deletes nothing, and so does a second `getRoomActivity(room)`; a second
`getUserActivity(room, options)` deletes nothing, and returns the same pairs as
the first when every composite key matching `room:*` has a time-key that is not
stale. -/
theorem repeated_query_same_answer (today : Today) (db : LogStore) (hwf : StoreWF db)
    (room userid : Str) (options : ActivityOptions) :
    (getLineCount today (getLineCount today db room userid).2 room userid).1 =
      (getLineCount today db room userid).1 ∧
    (getLineCount today (getLineCount today db room userid).2 room userid).2 =
      (getLineCount today db room userid).2 ∧
    (getRoomActivity today (getRoomActivity today db room).2 room).1 =
      (getRoomActivity today db room).1 ∧
    (getRoomActivity today (getRoomActivity today db room).2 room).2 =
      (getRoomActivity today db room).2 ∧
    (getUserActivity today (getUserActivity today db room options).2 room options).2 =
      (getUserActivity today db room options).2 ∧
    ((∀ e ∈ db, globMatch (room ++ ":*".toList) e.1 = true →
        ∃ p ∈ e.2, isStale today p.1 = false) →
      (getUserActivity today (getUserActivity today db room options).2 room options).1 =
        (getUserActivity today db room options).1) := by
  refine ⟨?_, ?_, getRoomActivity_twice today db hwf room, ?_, ?_,
    getUserActivity_twice today db hwf room options⟩
  · rw [getLineCount_output, getLineCount_output, getLineCount_store today db hwf,
      hkeys_eq_hashAt, hashAt_scan today _ db hwf]
    simp only [decide_True, if_true, fields_filter, List.filter_filter, Bool.and_self]
    rfl
  · rw [getLineCount_store today db hwf,
      getLineCount_store today _ (storeWF_scan today _ db hwf), scan_idem]
  · rw [getRoomActivity_store today db hwf,
      getRoomActivity_store today _ (storeWF_scan today _ db hwf), scan_idem]
  · rw [getUserActivity_store today db hwf,
      getUserActivity_store today _ (storeWF_scan today _ db hwf), scan_idem]

/-- Witness of `repeated_query_same_answer`: the sample database on 15 June. -/
theorem repeated_query_same_answer_witness :
    (getLineCount ⟨15, 5⟩ (getLineCount ⟨15, 5⟩ sampleStore "lobby".toList "alice".toList).2
        "lobby".toList "alice".toList).1 =
      (getLineCount ⟨15, 5⟩ sampleStore "lobby".toList "alice".toList).1 ∧
    (getUserActivity ⟨15, 5⟩
        (getUserActivity ⟨15, 5⟩ activityStore "lobby".toList ⟨true, none⟩).2
        "lobby".toList ⟨true, none⟩).1 =
      (getUserActivity ⟨15, 5⟩ activityStore "lobby".toList ⟨true, none⟩).1 :=
  ⟨(repeated_query_same_answer ⟨15, 5⟩ sampleStore (by decide) "lobby".toList
      "alice".toList ⟨false, none⟩).1,
    (repeated_query_same_answer ⟨15, 5⟩ activityStore (by decide) "lobby".toList
      "alice".toList ⟨true, none⟩).2.2.2.2.2 (by decide)⟩

end ChatLogger
